import Mathlib

/-!
Verification development for the `afternoon-tea-agent` repository
(`apps/ubereats-local-web`): a shallow embedding in Lean 4 of the pure
helper functions, the link collectors, the per-category crawl
orchestrator, the merge/dedup step, and the pipeline driver of
`crawler.py`, `pipeline.py` and `classifier.py`, together with theorems
settling the specification's claims about them.

Strings from the Python source are modelled as `List Char`.  Python's
regular-expression calls are embedded as explicit scanning functions with
`re.search` left-to-right earliest-match semantics.  Page/DOM effects are
modelled as explicit inputs (lists of per-round DOM scan results, or
oracle functions), and file writes as explicitly returned lists.
-/

namespace AfternoonTea

/-- ASCII whitespace as recognised by Python's `str.strip` / `\s`
(restricted to the ASCII range; the full Unicode whitespace set is not
modelled, no claim exercises it). -/
def isSpaceChar (c : Char) : Bool :=
  c = ' ' || c = '\t' || c = '\n' || c = '\r' || c = '\x0b' || c = '\x0c'

/-- Python `str.strip()`: drop leading and trailing whitespace. -/
def pyStrip (l : List Char) : List Char :=
  ((l.dropWhile isSpaceChar).reverse.dropWhile isSpaceChar).reverse

/-- Python `re.sub(r"\s+", "", s)`: remove all whitespace. -/
def removeWs (l : List Char) : List Char :=
  l.filter (fun c => !isSpaceChar c)

/-- Python `s.split("\n")[0]`: the text up to the first newline. -/
def firstLine (l : List Char) : List Char :=
  l.takeWhile (fun c => c ≠ '\n')

/-- Characters allowed in a store identifier: the regex class `[A-Za-z0-9_-]`. -/
def allowedIdChar (c : Char) : Bool :=
  c.isAlpha || c.isDigit || c = '-' || c = '_'

/-- Numeric value of a digit string (used for Python `int(...)` on a
string of decimal digits). -/
def digitsVal (l : List Char) : Nat :=
  l.foldl (fun a c => 10 * a + (c.toNat - 48)) 0

/-- Value of a hex digit, if any. -/
def hexVal (c : Char) : Option Nat :=
  if c.isDigit then some (c.toNat - 48)
  else if 'a' ≤ c && c ≤ 'f' then some (c.toNat - 87)
  else if 'A' ≤ c && c ≤ 'F' then some (c.toNat - 55)
  else none

/-- Modelled from `urllib.parse.unquote`: percent-decoding, restricted to
single-byte escapes (`%XX` becomes the character with code `XX`; invalid
escapes pass through; multi-byte UTF-8 sequences are not recombined — no
claim exercises them). -/
def pyUnquote : List Char → List Char
  | [] => []
  | '%' :: a :: b :: rest =>
    match hexVal a, hexVal b with
    | some x, some y => Char.ofNat (16 * x + y) :: pyUnquote rest
    | _, _ => '%' :: pyUnquote (a :: b :: rest)
  | c :: rest => c :: pyUnquote rest

/-- `UBER_EATS_BASE = "https://www.ubereats.com"`. -/
def baseChars : List Char := "https://www.ubereats.com".toList

/-- The literal `"/tw/store/"` shared by the store-URL regexes. -/
def storeLit : List Char := "/tw/store/".toList

/-- Matcher for the tail of `r"/tw/store/[^/]+/([A-Za-z0-9_-]{20,})"`:
`l` is the text immediately after the literal `"/tw/store/"`; a nonempty
slash-free slug, a `'/'`, then a greedy run of allowed characters of
length at least 20 (the captured group). -/
def matchStoreIdAt (l : List Char) : Option (List Char) :=
  let slug := l.takeWhile (fun c => c ≠ '/')
  if slug.isEmpty then none
  else
    match l.dropWhile (fun c => c ≠ '/') with
    | '/' :: after =>
      let run := after.takeWhile allowedIdChar
      if 20 ≤ run.length then some run else none
    | _ => none

/-- Matcher for the tail of `r"/tw/store/([^/]+)/"`: a nonempty
slash-free slug (the captured group) followed by a `'/'`. -/
def matchSlugAt (l : List Char) : Option (List Char) :=
  let slug := l.takeWhile (fun c => c ≠ '/')
  if slug.isEmpty then none
  else
    match l.dropWhile (fun c => c ≠ '/') with
    | '/' :: _ => some slug
    | _ => none

/-- `re.search` scanning skeleton shared by the two store-URL regexes:
try each start position left to right; where the literal `"/tw/store/"`
matches, run the tail matcher on the remainder; on failure continue from
the next position. -/
def searchStorePat (m : List Char → Option (List Char)) : List Char → Option (List Char)
  | [] => none
  | c :: cs =>
    if storeLit.isPrefixOf (c :: cs) then
      match m ((c :: cs).drop storeLit.length) with
      | some r => some r
      | none => searchStorePat m cs
    else searchStorePat m cs

/-- `_extract_store_id_from_url`: first match of
`r"/tw/store/[^/]+/([A-Za-z0-9_-]{20,})"`, returning the captured group. -/
def extract_store_id_from_url (url : List Char) : Option (List Char) :=
  searchStorePat matchStoreIdAt url

/-- `_extract_store_slug`: first match of `r"/tw/store/([^/]+)/"`,
percent-decoded; empty on no match. -/
def extract_store_slug (url : List Char) : List Char :=
  match searchStorePat matchSlugAt url with
  | some s => pyUnquote s
  | none => []

/-- `_build_store_url`. -/
def build_store_url (slug sid : List Char) : List Char :=
  baseChars ++ storeLit ++ slug ++ '/' :: sid

/-- `_absolute_store_url`. -/
def absolute_store_url (href : List Char) : List Char :=
  if ("http://".toList).isPrefixOf href || ("https://".toList).isPrefixOf href then href
  else
    match href with
    | '/' :: _ => baseChars ++ href
    | _ => baseChars ++ '/' :: href

/-- Filesystem-unsafe characters: the regex class from
`re.sub(r"[<>:\"/\\|?*]+", "_", name)`. -/
def unsafeChar (c : Char) : Bool :=
  c = '<' || c = '>' || c = ':' || c = '"' || c = '/' || c = '\\' ||
    c = '|' || c = '?' || c = '*'

/-- State recursion behind `subRuns`: `inRun` records whether the
previous character was part of a `p`-run already replaced by `'_'`. -/
def subRunsGo (p : Char → Bool) : Bool → List Char → List Char
  | _, [] => []
  | inRun, c :: cs =>
    if p c then
      (if inRun then subRunsGo p true cs else '_' :: subRunsGo p true cs)
    else c :: subRunsGo p false cs

/-- `re.sub(p+, "_", s)` for a character class `p`: replace each maximal
run of `p`-characters by a single underscore. -/
def subRuns (p : Char → Bool) (l : List Char) : List Char :=
  subRunsGo p false l

/-- `_sanitize_filename`: strip, replace unsafe-character runs, replace
whitespace runs, default to `"category"` when empty. -/
def sanitize_filename (text : List Char) : List Char :=
  let name := subRuns isSpaceChar (subRuns unsafeChar (pyStrip text))
  if name.isEmpty then "category".toList else name

/-- Single-pass segmentation form of the claim "replaces runs of
filesystem-unsafe characters and runs of whitespace with underscores"
(spec-side definition, compared with the source's two sequential
substitutions). -/
def segReplaceRuns : List Char → List Char
  | [] => []
  | c :: cs =>
    if unsafeChar c then '_' :: segReplaceRuns (cs.dropWhile unsafeChar)
    else if isSpaceChar c then '_' :: segReplaceRuns (cs.dropWhile isSpaceChar)
    else c :: segReplaceRuns cs
termination_by l => l.length
decreasing_by
  · simp only [List.length_cons]
    exact Nat.lt_succ_of_le (List.dropWhile_sublist (l := cs) (p := unsafeChar)).length_le
  · simp only [List.length_cons]
    exact Nat.lt_succ_of_le (List.dropWhile_sublist (l := cs) (p := isSpaceChar)).length_le
  · simp

/-- Matcher for the tail of `r"\$\s*(\d[\d,]*)"`: `l` is the text after a
`'$'`; optional whitespace, then a greedy digit-or-comma run starting
with a digit (the captured group). -/
def matchPriceAt (l : List Char) : Option (List Char) :=
  let rest := l.dropWhile isSpaceChar
  match rest with
  | d :: _ => if d.isDigit then some (rest.takeWhile (fun c => c.isDigit || c = ',')) else none
  | [] => none

/-- `re.search(r"\$\s*(\d[\d,]*)", text)`: scan for the first `'$'` whose
tail matches; on failure continue from the next position. -/
def searchPrice : List Char → Option (List Char)
  | [] => none
  | c :: cs =>
    if c = '$' then
      match matchPriceAt cs with
      | some g => some g
      | none => searchPrice cs
    else searchPrice cs

/-- `_parse_price`: `int(group(1).replace(",", ""))` of the first match,
else `None`. -/
def parse_price (text : List Char) : Option Nat :=
  (searchPrice text).map (fun g => digitsVal (g.filter (fun c => c ≠ ',')))

/-- `EXCLUDED_CATEGORY_TAGS = {"生鮮雜貨"}`. -/
def excludedTags : List (List Char) := ["生鮮雜貨".toList]

/-- `_is_usable_category_label`. -/
def is_usable_category_label (label : List Char) : Bool :=
  let text := removeWs (pyStrip label)
  !text.isEmpty && !(excludedTags.contains text)

/-- Input store record as consumed by `_minimal_store_records`
(`store.get("name")` / `store.get("url")`, a missing key modelled as the
empty string). -/
structure InRec where
  name : List Char
  url : List Char
deriving DecidableEq, Repr

/-- A `MinimalStoreRecord`: `{"name": ..., "url": ...}` plus
`"ue_category"` when a category label was supplied. -/
structure MRec where
  name : List Char
  url : List Char
  ue_category : Option (List Char)
deriving DecidableEq, Repr

/-- Recursion of `_minimal_store_records` with its `seen_urls` set. -/
def minimalGo (ue : List Char) (seen : List (List Char)) : List InRec → List MRec
  | [] => []
  | s :: rest =>
    if (pyStrip s.url).isEmpty || seen.contains (pyStrip s.url) then minimalGo ue seen rest
    else ⟨pyStrip s.name, pyStrip s.url, if ue.isEmpty then none else some ue⟩ ::
      minimalGo ue (pyStrip s.url :: seen) rest

/-- `_minimal_store_records`. -/
def minimal_store_records (store_links : List InRec) (ue_category : List Char) : List MRec :=
  minimalGo ue_category [] store_links

/-- Inner loop of `merge_category_stores` over one category's stores,
returning the updated `seen_urls` set together with the kept records. -/
def mergeStores (seen : List (List Char)) : List MRec → List (List Char) × List MRec
  | [] => (seen, [])
  | s :: rest =>
    if !s.url.isEmpty && !seen.contains s.url then
      ((mergeStores (s.url :: seen) rest).1, s :: (mergeStores (s.url :: seen) rest).2)
    else mergeStores seen rest

/-- Outer loop of `merge_category_stores` over `categorized.values()`. -/
def mergeCats (seen : List (List Char)) : List (List Char × List MRec) → List MRec
  | [] => []
  | (_, stores) :: rest =>
    (mergeStores seen stores).2 ++ mergeCats (mergeStores seen stores).1 rest

/-- `merge_category_stores`: flatten per-category stores into one list
deduplicated by URL (the insertion-ordered dict is modelled as an
association list). -/
def merge_category_stores (categorized : List (List Char × List MRec)) : List MRec :=
  mergeCats [] categorized

/-- All records of a `CategorizedResult` in category order then stored
order (spec-side helper for stating the merge claim). -/
def flattenCategorized (categorized : List (List Char × List MRec)) : List MRec :=
  (categorized.map Prod.snd).flatten

/-- Spec-side merge from the claim's words: iterate the records, keep the
first record seen for any URL, drop every later record with the same
URL. -/
def firstSeenByUrl (seen : List (List Char)) : List MRec → List MRec
  | [] => []
  | s :: rest =>
    if seen.contains s.url then firstSeenByUrl seen rest
    else s :: firstSeenByUrl (s.url :: seen) rest

/-- One store-link element as seen by a DOM scan: its `href` attribute
(`get_attribute("href") or ""` modelled directly) and its visible text. -/
structure LinkEl where
  href : List Char
  text : List Char
deriving DecidableEq, Repr

/-- Accumulated record of `collect_store_links_from_current_view`. -/
structure ViewStore where
  store_id : List Char
  name : List Char
  url : List Char
deriving DecidableEq, Repr

/-- Accumulated record of `collect_store_links` (the flat crawl). -/
structure FlatStore where
  store_id : List Char
  name : List Char
  slug : List Char
  url : List Char
deriving DecidableEq, Repr

/-- The record captured for a new store by
`collect_store_links_from_current_view`: display name is the first line
of the stripped visible text, falling back to the slug of the
absolutised href; the URL is the absolutised href. -/
def viewRecord (lk : LinkEl) (sid : List Char) : ViewStore :=
  ⟨sid,
   if (firstLine (pyStrip lk.text)).isEmpty
     then extract_store_slug (absolute_store_url lk.href)
     else firstLine (pyStrip lk.text),
   absolute_store_url lk.href⟩

/-- Per-round link scan of `collect_store_links_from_current_view`:
absolutise the href, extract the identifier (skip when absent), record
first occurrences, stop the round once the cap is reached. -/
def viewScanLinks (cap : Nat) (stores : List ViewStore) : List LinkEl → List ViewStore
  | [] => stores
  | lk :: rest =>
    match extract_store_id_from_url (absolute_store_url lk.href) with
    | none => viewScanLinks cap stores rest
    | some sid =>
      let stores' :=
        if stores.any (fun s => s.store_id == sid) then stores
        else stores ++ [viewRecord lk sid]
      if cap ≤ stores'.length then stores' else viewScanLinks cap stores' rest

/-- Scroll loop of `collect_store_links_from_current_view`: at most
`fuel` rounds (20 at the top level), break when the cap is reached or
after 3 consecutive rounds without growth; each round scans the current
DOM state (`rounds.headD []`). -/
def viewLoop (cap : Nat) : Nat → List ViewStore → Nat → Nat → List (List LinkEl) → List ViewStore
  | 0, stores, _, _, _ => stores.take cap
  | fuel + 1, stores, prev, stale, rounds =>
    if cap ≤ stores.length then stores.take cap
    else
      let stores' := viewScanLinks cap stores (rounds.headD [])
      if stores'.length = prev then
        if 3 ≤ stale + 1 then stores'.take cap
        else viewLoop cap fuel stores' stores'.length (stale + 1) rounds.tail
      else viewLoop cap fuel stores' stores'.length 0 rounds.tail

/-- `collect_store_links_from_current_view`, over the sequence of
per-round DOM scan results. -/
def collect_store_links_from_current_view (cap : Nat) (rounds : List (List LinkEl)) : List ViewStore :=
  viewLoop cap 20 [] 0 0 rounds

/-- The record captured for a new store by `collect_store_links`:
display name is the first line of the stripped visible text, falling
back to the slug of the raw href; the URL is rebuilt canonically from
the decoded slug and identifier. -/
def flatRecord (lk : LinkEl) (sid : List Char) : FlatStore :=
  ⟨sid,
   if (firstLine (pyStrip lk.text)).isEmpty
     then extract_store_slug lk.href
     else firstLine (pyStrip lk.text),
   extract_store_slug lk.href,
   build_store_url (extract_store_slug lk.href) sid⟩

/-- Per-round link scan of `collect_store_links` (flat crawl): extract
the identifier from the raw href, record first occurrences with a
canonical rebuilt URL, check the cap after every element. -/
def flatScanLinks (cap : Nat) (stores : List FlatStore) : List LinkEl → List FlatStore
  | [] => stores
  | lk :: rest =>
    let stores' :=
      match extract_store_id_from_url lk.href with
      | some sid =>
        if stores.any (fun s => s.store_id == sid) then stores
        else stores ++ [flatRecord lk sid]
      | none => stores
    if cap ≤ stores'.length then stores' else flatScanLinks cap stores' rest

/-- Scroll loop of `collect_store_links`, same shape as `viewLoop`. -/
def flatLoop (cap : Nat) : Nat → List FlatStore → Nat → Nat → List (List LinkEl) → List FlatStore
  | 0, stores, _, _, _ => stores.take cap
  | fuel + 1, stores, prev, stale, rounds =>
    if cap ≤ stores.length then stores.take cap
    else
      let stores' := flatScanLinks cap stores (rounds.headD [])
      if stores'.length = prev then
        if 3 ≤ stale + 1 then stores'.take cap
        else flatLoop cap fuel stores' stores'.length (stale + 1) rounds.tail
      else flatLoop cap fuel stores' stores'.length 0 rounds.tail

/-- `collect_store_links`, over the sequence of per-round DOM scan
results. -/
def collect_store_links (cap : Nat) (rounds : List (List LinkEl)) : List FlatStore :=
  flatLoop cap 20 [] 0 0 rounds

/-- A discovered category chip element: its `data-testid` attribute
(`get_attribute or ""` modelled directly) and its visible text (`none`
when `inner_text` raised, which the source skips). -/
structure Chip where
  testid : List Char
  text : Option (List Char)
deriving DecidableEq, Repr

/-- A `CategoryTag` as produced by discovery. -/
structure CatTag where
  order : Nat
  label : List Char
  testid : List Char
deriving DecidableEq, Repr

/-- `CATEGORY_TESTID_PREFIX = "search-home-item-"`. -/
def catTestidLit : List Char := "search-home-item-".toList

/-- Python `str.removeprefix`. -/
def removePre (p l : List Char) : List Char :=
  if p.isPrefixOf l then l.drop p.length else l

/-- Recursion of `discover_category_tags_from_feed` over the chips, with
`enumerate(chips, 1)` index and the two dedup sets. -/
def discoverGo (idx : Nat) (seenT seenL : List (List Char)) : List Chip → List CatTag
  | [] => []
  | ch :: rest =>
    let testid := pyStrip ch.testid
    if testid.isEmpty || !(catTestidLit.isPrefixOf testid) then
      discoverGo (idx + 1) seenT seenL rest
    else if seenT.contains testid then discoverGo (idx + 1) seenT seenL rest
    else
      match ch.text with
      | none => discoverGo (idx + 1) seenT seenL rest
      | some t =>
        let text0 := firstLine (pyStrip t)
        let label0 := removeWs text0
        let label := if label0.isEmpty then removeWs (removePre catTestidLit testid) else label0
        if !is_usable_category_label label then discoverGo (idx + 1) seenT seenL rest
        else if seenL.contains label then discoverGo (idx + 1) seenT seenL rest
        else ⟨idx, label, testid⟩ :: discoverGo (idx + 1) (testid :: seenT) (label :: seenL) rest

/-- `discover_category_tags_from_feed`, over the chip elements found on
the feed page. -/
def discover_category_tags_from_feed (chips : List Chip) : List CatTag :=
  discoverGo 1 [] [] chips

/-- A category entry as handed to the orchestrator
(`{"label": ..., "testid": ...}`). -/
structure Tag where
  label : List Char
  testid : List Char
deriving DecidableEq, Repr

/-- A written per-category output file: its name and its content. -/
structure FileOut where
  fname : List Char
  records : List MRec
deriving DecidableEq, Repr

/-- Oracle for the page effects of one `_crawl_one_category` call:
whether the two selection attempts of a call succeed, and the store
links collected after a successful selection.  The first argument is the
pass index (0 = first pass, 1 = retry pass), the second the category
label, the third (for `selectOk`) the attempt within the call. -/
structure CrawlEnv where
  selectOk : Nat → List Char → Nat → Bool
  collect : Nat → List Char → List ViewStore

/-- Python `f"{idx:02d}"`. -/
def pad2 (n : Nat) : List Char :=
  if n < 10 then '0' :: (Nat.repr n).toList else (Nat.repr n).toList

/-- The per-category file name `f"{idx:02d}_{_sanitize_filename(category)}.json"`. -/
def mkCatFileName (idx : Nat) (label : List Char) : List Char :=
  pad2 idx ++ '_' :: (sanitize_filename label ++ ".json".toList)

/-- Insertion-ordered dict assignment `categorized[category] = ...`:
replace in place when the key exists, else append. -/
def dictInsert (d : List (List Char × List MRec)) (k : List Char) (v : List MRec) :
    List (List Char × List MRec) :=
  if d.any (fun p => p.1 == k) then d.map (fun p => if p.1 == k then (k, v) else p)
  else d ++ [(k, v)]

/-- Dict lookup on the association-list model. -/
def dictFind (k : List Char) (d : List (List Char × List MRec)) : Option (List MRec) :=
  match d.find? (fun p => p.1 == k) with
  | some p => some p.2
  | none => none

/-- The mutable state threaded through the orchestrator: the
`categorized` dict and the files written so far. -/
structure CrawlState where
  categorized : List (List Char × List MRec)
  files : List FileOut
deriving DecidableEq, Repr

/-- `_crawl_one_category`: selection with one reload-and-retry (a failure
of both attempts returns 0 with no state change); on success, collect,
convert to minimal records, store under the label and write the
per-category file. -/
def crawlOne (env : CrawlEnv) (passIdx : Nat) (cat : Tag) (idx : Nat) (st : CrawlState) :
    Nat × CrawlState :=
  if env.selectOk passIdx cat.label 0 || env.selectOk passIdx cat.label 1 then
    let minimal := minimal_store_records
      ((env.collect passIdx cat.label).map (fun v => ⟨v.name, v.url⟩)) cat.label
    (minimal.length,
      ⟨dictInsert st.categorized cat.label minimal,
       st.files ++ [⟨mkCatFileName idx cat.label, minimal⟩]⟩)
  else (0, st)

/-- First pass of `crawl_stores_by_category` over the crawlable
categories with `enumerate(crawlable, 1)`, accumulating the categories
that yielded zero stores. -/
def firstPass (env : CrawlEnv) : Nat → List Tag → CrawlState → List Tag → CrawlState × List Tag
  | _, [], st, empties => (st, empties)
  | idx, c :: rest, st, empties =>
    firstPass env (idx + 1) rest (crawlOne env 0 c idx st).2
      (if (crawlOne env 0 c idx st).1 = 0 then empties ++ [c] else empties)

/-- Retry pass of `crawl_stores_by_category` over the empty categories,
re-deriving each category's 1-based index in the crawlable list by
label. -/
def retryPass (env : CrawlEnv) (crawlable : List Tag) : List Tag → CrawlState → CrawlState
  | [], st => st
  | c :: rest, st =>
    retryPass env crawlable rest
      (crawlOne env 1 c (crawlable.findIdx (fun t => t.label == c.label) + 1) st).2

/-- The crawlable categories: `categories_to_crawl` without the excluded
labels. -/
def crawlableOf (cats : List Tag) : List Tag :=
  cats.filter (fun c => !(excludedTags.contains c.label))

/-- `crawl_stores_by_category` after the category set is determined:
first pass, then one retry pass over the categories that yielded zero
stores.  Returns the `categorized` mapping and the files written. -/
def crawl_stores_by_category (env : CrawlEnv) (categories_to_crawl : List Tag) :
    List (List Char × List MRec) × List FileOut :=
  let crawlable := crawlableOf categories_to_crawl
  let st2 := retryPass env crawlable (firstPass env 1 crawlable ⟨[], []⟩ []).2
    (firstPass env 1 crawlable ⟨[], []⟩ []).1
  (st2.categorized, st2.files)

/-- `AFTERNOON_TEA_CATEGORIES` in dict insertion order. -/
def afternoonTeaCategories : List Tag :=
  [⟨"速食".toList, "search-home-item-速食".toList⟩,
   ⟨"早餐和早午餐".toList, "search-home-item-早餐和早午餐".toList⟩,
   ⟨"珍珠奶茶".toList, "search-home-item-珍珠奶茶".toList⟩,
   ⟨"咖啡和茶".toList, "search-home-item-咖啡和茶".toList⟩,
   ⟨"烘焙食品".toList, "search-home-item-烘焙食品".toList⟩]

/-- The category-set determination of `crawl_stores_by_category`
(lines 593-615): afternoon-tea mode uses the predefined list without
discovery; otherwise discovered categories, intersected with the
normalized requested labels when an allow-list was given (an empty
`categories` list models `None`/falsy). -/
def categories_to_crawl_of (afternoon_tea_only : Bool) (categories : List (List Char))
    (discovered : List CatTag) : List Tag :=
  if afternoon_tea_only && categories.isEmpty then afternoonTeaCategories
  else
    let base := discovered.map (fun t => (⟨t.label, t.testid⟩ : Tag))
    if categories.isEmpty then base
    else
      let requested := (categories.filter (fun c => !(pyStrip c).isEmpty)).map removeWs
      base.filter (fun c => requested.contains c.label)

/-- Observable pipeline steps of `run_pipeline`, in execution order. -/
inductive PipeEv
  | crawlRun
  | writeRaw
  | classifyRun
  | writeClassified
deriving DecidableEq, Repr

/-- Fatal outcomes of `run_pipeline` (`sys.exit` or an uncaught
exception). -/
inductive PipeErr
  | missingAddress
  | missingRawFile
  | missingGeminiKey
deriving DecidableEq, Repr

/-- Configuration environment of the pipeline process. -/
structure PipeEnv where
  address : List Char
  geminiKey : List Char
  rawExists : Bool

/-- The credential check at the top of `classify_stores` (lines
120-126): fall back from the argument to `GEMINI_API_KEY`, raise when
empty. -/
def classify_stores_key_check (api_key : Option (List Char)) (env_key : List Char) :
    Except PipeErr Unit :=
  let key := match api_key with
    | none => env_key
    | some k => k
  if key.isEmpty then .error .missingGeminiKey else .ok ()

/-- `run_pipeline` control flow, with page/LLM work abstracted to events:
Step 1 crawls (unless skipped) after checking the delivery address; Step
2 classifies, whose credential check is `classify_stores_key_check`.
Returns the executed steps in order and the fatal outcome, if any (both
the legacy and the category crawl mode perform crawl work in Step 1). -/
def run_pipeline (skip_crawl : Bool) (env : PipeEnv) : List PipeEv × Option PipeErr :=
  if !skip_crawl then
    if env.address.isEmpty then ([], some .missingAddress)
    else
      match classify_stores_key_check none env.geminiKey with
      | .error e => ([.crawlRun, .writeRaw, .classifyRun], some e)
      | .ok _ => ([.crawlRun, .writeRaw, .classifyRun, .writeClassified], none)
  else
    if !env.rawExists then ([], some .missingRawFile)
    else
      match classify_stores_key_check none env.geminiKey with
      | .error e => ([.classifyRun], some e)
      | .ok _ => ([.classifyRun, .writeClassified], none)

/-- Seen-set evolution of `firstSeenByUrl` (spec-side helper). -/
def fsSeenAfter (seen : List (List Char)) : List MRec → List (List Char)
  | [] => seen
  | s :: rest =>
    if seen.contains s.url then fsSeenAfter seen rest
    else fsSeenAfter (s.url :: seen) rest

/-- Claim-side reading of "a '$'-prefixed digit sequence occurs": some
`'$'` is immediately followed by a digit. -/
def hasDollarDigit : List Char → Bool
  | [] => false
  | c :: cs => (c = '$' && (cs.headD ' ').isDigit) || hasDollarDigit cs

/-- Some `'$'` is followed, after optional whitespace, by a digit (what
the source's regex `\$\s*\d` requires). -/
def hasDollarWsDigit : List Char → Bool
  | [] => false
  | c :: cs => (c = '$' && ((cs.dropWhile isSpaceChar).headD ' ').isDigit) || hasDollarWsDigit cs

/-- Decimal digit characters of `n`, most significant first. -/
def natChars (n : Nat) : List Char :=
  if n = 0 then ['0'] else ((Nat.digits 10 n).reverse).map (fun d => Char.ofNat (48 + d))

/-- Insert a comma after every third character (applied to the reversed
digit string). -/
def commaRev : List Char → List Char
  | a :: b :: c :: d :: rest => a :: b :: c :: ',' :: commaRev (d :: rest)
  | l => l

/-- `n` printed with comma thousands separators (e.g. `1200` as
`"1,200"`). -/
def commaGroup (n : Nat) : List Char :=
  (commaRev (natChars n).reverse).reverse

/-- Spec-side store-path pattern of the claim about `extractStoreId`:
the URL contains `"/tw/store/"`, then a nonempty slash-free slug
segment, a `'/'`, then at least 20 identifier characters. -/
def specStorePattern (url : List Char) : Prop :=
  ∃ a s i b, url = a ++ storeLit ++ s ++ '/' :: (i ++ b) ∧ s ≠ [] ∧
    (∀ c ∈ s, c ≠ '/') ∧ (∀ c ∈ i, allowedIdChar c = true) ∧ 20 ≤ i.length

/-- A canonical root-relative store href: exactly
`"/tw/store/" ++ slug ++ "/" ++ id` with a nonempty percent-free
slash-free slug and an identifier of at least 20 allowed characters. -/
def canonicalHref (h : List Char) : Prop :=
  ∃ s i, h = storeLit ++ s ++ '/' :: i ∧ s ≠ [] ∧
    (∀ c ∈ s, c ≠ '/' ∧ c ≠ '%') ∧ (∀ c ∈ i, allowedIdChar c = true) ∧ 20 ≤ i.length

/-- The fields produced by both collectors, from a per-category record. -/
def viewProj (s : ViewStore) : List Char × List Char × List Char :=
  (s.store_id, s.name, s.url)

/-- The fields produced by both collectors, from a flat-crawl record. -/
def flatProj (s : FlatStore) : List Char × List Char × List Char :=
  (s.store_id, s.name, s.url)

/-- Oracle where every selection attempt fails. -/
def envAllFail : CrawlEnv := ⟨fun _ _ _ => false, fun _ _ => []⟩

/-! ### General lemmas about the character helpers -/

theorem space_not_unsafeChar {c : Char} (h : isSpaceChar c = true) : unsafeChar c = false := by
  simp only [isSpaceChar, Bool.or_eq_true, decide_eq_true_eq] at h
  rcases h with ((((h | h) | h) | h) | h) | h <;> subst h <;> rfl

theorem unsafe_not_space {c : Char} (h : unsafeChar c = true) : isSpaceChar c = false := by
  cases hs : isSpaceChar c with
  | false => rfl
  | true =>
    rw [space_not_unsafeChar hs] at h
    exact h.symm

theorem dropWhile_eq_self_of_false {p : Char → Bool} {l : List Char}
    (h : ∀ c ∈ l, p c = false) : l.dropWhile p = l := by
  induction l with
  | nil => rfl
  | cons a as ih =>
    rw [List.dropWhile_cons]
    simp only [h a (List.mem_cons_self a as), Bool.false_eq_true, if_false]

theorem pyStrip_of_no_space {l : List Char} (h : ∀ c ∈ l, isSpaceChar c = false) :
    pyStrip l = l := by
  unfold pyStrip
  rw [dropWhile_eq_self_of_false h,
    dropWhile_eq_self_of_false (fun c hc => h c (List.mem_reverse.mp hc)), List.reverse_reverse]

theorem getLast_dropWhile {p : Char → Bool} {l : List Char} (h : l.dropWhile p ≠ [])
    (h2 : l ≠ []) : (l.dropWhile p).getLast h = l.getLast h2 := by
  obtain ⟨t, ht⟩ := List.dropWhile_suffix (l := l) p
  calc (l.dropWhile p).getLast h = (t ++ l.dropWhile p).getLast (by simp [h]) :=
        (List.getLast_append_of_ne_nil h).symm
    _ = l.getLast h2 := by congr 1

theorem dropWhile_reverse_strip {p : Char → Bool} {l : List Char} :
    ((l.dropWhile p).reverse.dropWhile p).reverse.dropWhile p =
      ((l.dropWhile p).reverse.dropWhile p).reverse := by
  cases hzr : ((l.dropWhile p).reverse.dropWhile p).reverse with
  | nil => rfl
  | cons a as =>
    have hzne : (l.dropWhile p).reverse.dropWhile p ≠ [] := by
      intro h0
      simp [h0] at hzr
    have hxne : l.dropWhile p ≠ [] := by
      intro h0
      apply hzne
      simp [h0]
    have hxr : (l.dropWhile p).reverse ≠ [] := by simpa using hxne
    have hsome : ((l.dropWhile p).reverse.dropWhile p).reverse.head? = some a := by
      rw [hzr]; rfl
    have hsome2 : ((l.dropWhile p).reverse.dropWhile p).reverse.head? =
        some ((l.dropWhile p).head hxne) := by
      rw [List.head?_reverse]
      rw [List.getLast?_eq_getLast _ hzne]
      rw [getLast_dropWhile hzne hxr]
      rw [List.getLast_reverse hxr]
    have ha : a = (l.dropWhile p).head hxne := by
      have := hsome.symm.trans hsome2
      exact Option.some.inj this
    have hp : p a = false := by
      rw [ha]
      exact List.head_dropWhile_not p l hxne
    rw [List.dropWhile_cons]
    simp only [hp, Bool.false_eq_true, if_false]

theorem pyStrip_idem (l : List Char) : pyStrip (pyStrip l) = pyStrip l := by
  have h1 : (pyStrip l).dropWhile isSpaceChar = pyStrip l := dropWhile_reverse_strip
  have h2 : (pyStrip l).reverse.dropWhile isSpaceChar = (pyStrip l).reverse := by
    have hrr : (pyStrip l).reverse =
        (l.dropWhile isSpaceChar).reverse.dropWhile isSpaceChar := by
      show (((l.dropWhile isSpaceChar).reverse.dropWhile isSpaceChar).reverse).reverse = _
      rw [List.reverse_reverse]
    rw [hrr, List.dropWhile_idempotent]
  show (((pyStrip l).dropWhile isSpaceChar).reverse.dropWhile isSpaceChar).reverse = pyStrip l
  rw [h1, h2, List.reverse_reverse]

theorem pyStrip_eq_nil_iff {l : List Char} :
    pyStrip l = [] ↔ ∀ c ∈ l, isSpaceChar c = true := by
  unfold pyStrip
  rw [List.reverse_eq_nil_iff, List.dropWhile_eq_nil_iff]
  constructor
  · intro h c hc
    rw [← List.takeWhile_append_dropWhile (p := isSpaceChar) (l := l)] at hc
    rcases List.mem_append.mp hc with hm | hm
    · exact List.mem_takeWhile_imp hm
    · exact h c (List.mem_reverse.mpr hm)
  · intro h c hc
    exact h c ((List.dropWhile_suffix isSpaceChar).subset (List.mem_reverse.mp hc))

theorem pyStrip_ne_nil_of_mem {l : List Char} {c : Char} (hc : c ∈ l)
    (h : isSpaceChar c = false) : pyStrip l ≠ [] := by
  intro h0
  rw [pyStrip_eq_nil_iff.mp h0 c hc] at h
  cases h

/-! ### C6: configuration errors in the pipeline -/

/-- C6 counterexample: with a delivery address set and `GEMINI_API_KEY`
missing, `run_pipeline` performs the crawl first and only then fails at
the classification step — the missing key does not abort the pipeline
before crawling. -/
theorem run_pipeline_missing_key_after_crawl :
    (run_pipeline false ⟨['a'], [], true⟩).2 = some PipeErr.missingGeminiKey ∧
    PipeEv.crawlRun ∈ (run_pipeline false ⟨['a'], [], true⟩).1 := by decide

/-- C6 (amended): a missing delivery address is fatal at startup — the
pipeline exits before any crawl or classification step runs; a missing
`GEMINI_API_KEY` is fatal only when classification starts, i.e. the
crawl of Step 1 has already run when the pipeline aborts. -/
theorem run_pipeline_config_error_points (env : PipeEnv) :
    (env.address.isEmpty = true →
      run_pipeline false env = ([], some PipeErr.missingAddress)) ∧
    (env.address.isEmpty = false → env.geminiKey.isEmpty = true →
      run_pipeline false env =
        ([PipeEv.crawlRun, PipeEv.writeRaw, PipeEv.classifyRun],
          some PipeErr.missingGeminiKey)) := by
  constructor
  · intro h
    simp [run_pipeline, h]
  · intro h hk
    simp [run_pipeline, h, classify_stores_key_check, hk]

/-- Witness for `run_pipeline_config_error_points` at concrete
environments. -/
theorem run_pipeline_config_error_points_witness :
    run_pipeline false ⟨[], ['k'], true⟩ = ([], some PipeErr.missingAddress) ∧
    run_pipeline false ⟨['a'], [], true⟩ =
      ([PipeEv.crawlRun, PipeEv.writeRaw, PipeEv.classifyRun],
        some PipeErr.missingGeminiKey) :=
  ⟨(run_pipeline_config_error_points ⟨[], ['k'], true⟩).1 rfl,
   (run_pipeline_config_error_points ⟨['a'], [], true⟩).2 rfl rfl⟩

/-! ### C10: URL presence invariants of the record builder and the merge -/

theorem minimalGo_mem {ue : List Char} {seen : List (List Char)} {links : List InRec}
    {r : MRec} (h : r ∈ minimalGo ue seen links) :
    r.url ≠ [] ∧ pyStrip r.url = r.url := by
  induction links generalizing seen with
  | nil => cases h
  | cons s rest ih =>
    rw [minimalGo] at h
    by_cases hc : ((pyStrip s.url).isEmpty || seen.contains (pyStrip s.url)) = true
    · rw [if_pos hc] at h
      exact ih h
    · rw [if_neg hc] at h
      rcases List.mem_cons.mp h with h1 | h1
      · subst h1
        simp only [Bool.or_eq_true, not_or] at hc
        obtain ⟨hc1, _⟩ := hc
        constructor
        · show pyStrip s.url ≠ []
          intro h0
          rw [h0] at hc1
          exact hc1 rfl
        · show pyStrip (pyStrip s.url) = pyStrip s.url
          exact pyStrip_idem s.url
      · exact ih h1

theorem mergeStores_mem {seen : List (List Char)} {l : List MRec} {r : MRec}
    (h : r ∈ (mergeStores seen l).2) : r ∈ l ∧ r.url ≠ [] := by
  induction l generalizing seen with
  | nil => cases h
  | cons s rest ih =>
    rw [mergeStores] at h
    by_cases hc : !s.url.isEmpty && !seen.contains s.url
    · rw [if_pos hc] at h
      rcases List.mem_cons.mp h with h1 | h1
      · subst h1
        simp only [Bool.and_eq_true, Bool.not_eq_true'] at hc
        refine ⟨List.mem_cons_self _ _, ?_⟩
        intro h0
        rw [h0] at hc
        simp at hc
      · obtain ⟨hm, hu⟩ := ih h1
        exact ⟨List.mem_cons_of_mem _ hm, hu⟩
    · rw [if_neg hc] at h
      obtain ⟨hm, hu⟩ := ih h
      exact ⟨List.mem_cons_of_mem _ hm, hu⟩

theorem mergeCats_mem {seen : List (List Char)} {c : List (List Char × List MRec)}
    {r : MRec} (h : r ∈ mergeCats seen c) : (∃ p ∈ c, r ∈ p.2) ∧ r.url ≠ [] := by
  induction c generalizing seen with
  | nil => cases h
  | cons p rest ih =>
    obtain ⟨k, stores⟩ := p
    rw [mergeCats] at h
    rcases List.mem_append.mp h with h1 | h1
    · obtain ⟨hm, hu⟩ := mergeStores_mem h1
      exact ⟨⟨(k, stores), List.mem_cons_self _ _, hm⟩, hu⟩
    · obtain ⟨⟨q, hq, hm⟩, hu⟩ := ih h1
      exact ⟨⟨q, List.mem_cons_of_mem _ hq, hm⟩, hu⟩

/-- C10 counterexample: a record whose url is whitespace-only (`" "`) is
not dropped by `merge_category_stores` — the claim that such records are
silently dropped by the cross-category merge fails. -/
theorem merge_keeps_whitespace_url :
    merge_category_stores [(['A'], [⟨['x'], [' '], none⟩])] = [⟨['x'], [' '], none⟩] ∧
    pyStrip ([' '] : List Char) = [] := by decide

/-- C10 (amended): the per-category record builder drops every record
whose url is missing, empty, or whitespace-only — each of its output
records has a non-empty already-stripped url; the cross-category merge
drops only records whose url is exactly the empty string (a
whitespace-only url would be kept), and a merged list built from inputs
with non-empty stripped urls again contains only records with non-empty
stripped urls. -/
theorem url_presence_invariants :
    (∀ (links : List InRec) (ue : List Char) (r : MRec),
      r ∈ minimal_store_records links ue → r.url ≠ [] ∧ pyStrip r.url = r.url) ∧
    (∀ (categorized : List (List Char × List MRec)) (r : MRec),
      r ∈ merge_category_stores categorized → r.url ≠ []) ∧
    (∀ categorized : List (List Char × List MRec),
      (∀ p ∈ categorized, ∀ r ∈ p.2, pyStrip r.url ≠ []) →
      ∀ r ∈ merge_category_stores categorized, pyStrip r.url ≠ []) := by
  refine ⟨?_, ?_, ?_⟩
  · intro links ue r h
    exact minimalGo_mem h
  · intro categorized r h
    exact (mergeCats_mem h).2
  · intro categorized hin r h
    obtain ⟨⟨p, hp, hm⟩, _⟩ := mergeCats_mem h
    exact hin p hp r hm

/-- Witness for `url_presence_invariants` at concrete inputs. -/
theorem url_presence_invariants_witness :
    (⟨['B'], ['u'], none⟩ : MRec).url ≠ [] ∧
    pyStrip (⟨['B'], ['u'], none⟩ : MRec).url = (⟨['B'], ['u'], none⟩ : MRec).url :=
  url_presence_invariants.1 [⟨[' ', 'B'], ['u']⟩] [] ⟨['B'], ['u'], none⟩ (by decide)

/-! ### C2: the merge is first-seen deduplication by URL -/

theorem firstSeenByUrl_append (seen : List (List Char)) (l1 l2 : List MRec) :
    firstSeenByUrl seen (l1 ++ l2) =
      firstSeenByUrl seen l1 ++ firstSeenByUrl (fsSeenAfter seen l1) l2 := by
  induction l1 generalizing seen with
  | nil => rfl
  | cons s rest ih =>
    rw [List.cons_append, firstSeenByUrl, firstSeenByUrl, fsSeenAfter]
    by_cases hc : seen.contains s.url
    · rw [if_pos hc, if_pos hc, if_pos hc, ih]
    · rw [if_neg hc, if_neg hc, if_neg hc, ih, List.cons_append]

theorem mergeStores_eq_firstSeen {seen : List (List Char)} {l : List MRec}
    (h : ∀ r ∈ l, r.url ≠ []) :
    mergeStores seen l = (fsSeenAfter seen l, firstSeenByUrl seen l) := by
  induction l generalizing seen with
  | nil => rfl
  | cons s rest ih =>
    have hs : s.url.isEmpty = false := by
      have := h s (List.mem_cons_self _ _)
      cases hu : s.url with
      | nil => exact absurd hu this
      | cons a as => rfl
    have hrest : ∀ r ∈ rest, r.url ≠ [] := fun r hr => h r (List.mem_cons_of_mem _ hr)
    rw [mergeStores, firstSeenByUrl, fsSeenAfter]
    by_cases hc : seen.contains s.url = true
    · have hcond : (!s.url.isEmpty && !seen.contains s.url) = false := by
        rw [hs, hc]; rfl
      rw [hcond, if_neg (by decide : ¬(false = true)), if_pos hc, if_pos hc]
      exact ih hrest
    · have hc2 : seen.contains s.url = false := by
        cases hcc : seen.contains s.url
        · rfl
        · exact absurd hcc hc
      have hcond : (!s.url.isEmpty && !seen.contains s.url) = true := by
        rw [hs, hc2]; rfl
      rw [hcond, if_pos rfl, if_neg hc, if_neg hc, ih hrest]

theorem mergeCats_eq_firstSeen {seen : List (List Char)}
    {c : List (List Char × List MRec)}
    (h : ∀ p ∈ c, ∀ r ∈ p.2, r.url ≠ []) :
    mergeCats seen c = firstSeenByUrl seen (flattenCategorized c) := by
  induction c generalizing seen with
  | nil => rfl
  | cons p rest ih =>
    obtain ⟨k, stores⟩ := p
    have h1 : ∀ r ∈ stores, r.url ≠ [] := h (k, stores) (List.mem_cons_self _ _)
    have h2 : ∀ q ∈ rest, ∀ r ∈ q.2, r.url ≠ [] :=
      fun q hq => h q (List.mem_cons_of_mem _ hq)
    have hfl : flattenCategorized ((k, stores) :: rest) =
        stores ++ flattenCategorized rest := by
      simp [flattenCategorized]
    rw [mergeCats, mergeStores_eq_firstSeen h1, hfl, firstSeenByUrl_append, ih h2]

/-- C2: on `CategorizedResult`s (whose records have non-empty urls, as
`_minimal_store_records` guarantees), `merge_category_stores` is exactly
first-seen deduplication by URL over the categories in mapping order and
the records in stored order: the first record seen for a URL is kept,
every later record with that URL is dropped even when its `ue_category`
differs. -/
theorem merge_is_first_seen_dedup (categorized : List (List Char × List MRec))
    (h : ∀ p ∈ categorized, ∀ r ∈ p.2, r.url ≠ []) :
    merge_category_stores categorized =
      firstSeenByUrl [] (flattenCategorized categorized) :=
  mergeCats_eq_firstSeen h

/-- Witness for `merge_is_first_seen_dedup` on the claim's example:
`A ↦ [url1, url2]`, `B ↦ [url1', url3]` merges to `[url1, url2, url3]`
with url1 carrying category A's record. -/
theorem merge_is_first_seen_dedup_witness :
    merge_category_stores
        [(['A'], [⟨['a'], ['1'], some ['A']⟩, ⟨['b'], ['2'], some ['A']⟩]),
         (['B'], [⟨['a', '2'], ['1'], some ['B']⟩, ⟨['c'], ['3'], some ['B']⟩])] =
      firstSeenByUrl []
        (flattenCategorized
          [(['A'], [⟨['a'], ['1'], some ['A']⟩, ⟨['b'], ['2'], some ['A']⟩]),
           (['B'], [⟨['a', '2'], ['1'], some ['B']⟩, ⟨['c'], ['3'], some ['B']⟩])]) ∧
    merge_category_stores
        [(['A'], [⟨['a'], ['1'], some ['A']⟩, ⟨['b'], ['2'], some ['A']⟩]),
         (['B'], [⟨['a', '2'], ['1'], some ['B']⟩, ⟨['c'], ['3'], some ['B']⟩])] =
      [⟨['a'], ['1'], some ['A']⟩, ⟨['b'], ['2'], some ['A']⟩, ⟨['c'], ['3'], some ['B']⟩] :=
  ⟨merge_is_first_seen_dedup _ (by decide), by decide⟩

/-! ### C9: sanitize_filename -/

theorem subRunsGo_true_eq (p : Char → Bool) (cs : List Char) :
    subRunsGo p true cs = subRunsGo p false (cs.dropWhile p) := by
  induction cs with
  | nil => rfl
  | cons c cs ih =>
    rw [subRunsGo, List.dropWhile_cons]
    cases hc : p c with
    | true =>
      simp only [if_true, ih]
    | false =>
      simp only [Bool.false_eq_true, if_false]
      rw [subRunsGo]
      simp only [hc, Bool.false_eq_true, if_false]

theorem subRuns_cons_pos {p : Char → Bool} {c : Char} (hc : p c = true) (cs : List Char) :
    subRuns p (c :: cs) = '_' :: subRuns p (cs.dropWhile p) := by
  unfold subRuns
  rw [subRunsGo]
  simp only [hc, if_true, Bool.false_eq_true, if_false, subRunsGo_true_eq]

theorem subRuns_cons_neg {p : Char → Bool} {c : Char} (hc : p c = false) (cs : List Char) :
    subRuns p (c :: cs) = c :: subRuns p cs := by
  unfold subRuns
  rw [subRunsGo]
  simp only [hc, Bool.false_eq_true, if_false]

theorem dropWhile_space_subRuns_unsafeChar (l : List Char) :
    (subRuns unsafeChar l).dropWhile isSpaceChar = subRuns unsafeChar (l.dropWhile isSpaceChar) := by
  induction l with
  | nil => rfl
  | cons c cs ih =>
    by_cases hu : unsafeChar c = true
    · rw [subRuns_cons_pos hu, List.dropWhile_cons, List.dropWhile_cons]
      simp only [unsafe_not_space hu, Bool.false_eq_true, if_false]
      have h7 : isSpaceChar '_' = false := rfl
      simp only [h7, Bool.false_eq_true, if_false]
      rw [subRuns_cons_pos hu]
    · have hu2 : unsafeChar c = false := by
        cases h0 : unsafeChar c
        · rfl
        · exact absurd h0 hu
      rw [subRuns_cons_neg hu2, List.dropWhile_cons, List.dropWhile_cons]
      by_cases hs : isSpaceChar c = true
      · simp only [hs, if_true]
        exact ih
      · simp only [hs, Bool.false_eq_true, if_false]
        rw [subRuns_cons_neg hu2]

theorem subRuns_comp (l : List Char) :
    subRuns isSpaceChar (subRuns unsafeChar l) = segReplaceRuns l := by
  induction l using segReplaceRuns.induct with
  | case1 =>
    rw [segReplaceRuns]
    rfl
  | case2 c cs hu ih =>
    rw [segReplaceRuns, if_pos hu, subRuns_cons_pos hu]
    have h7 : isSpaceChar '_' = false := rfl
    rw [subRuns_cons_neg h7, ih]
  | case3 c cs hu hs ih =>
    have hu2 : unsafeChar c = false := by
      cases h0 : unsafeChar c
      · rfl
      · exact absurd h0 hu
    rw [segReplaceRuns, if_neg hu, if_pos hs, subRuns_cons_neg hu2, subRuns_cons_pos hs]
    rw [dropWhile_space_subRuns_unsafeChar, ih]
  | case4 c cs hu hs ih =>
    have hu2 : unsafeChar c = false := by
      cases h0 : unsafeChar c
      · rfl
      · exact absurd h0 hu
    have hs2 : isSpaceChar c = false := by
      cases h0 : isSpaceChar c
      · rfl
      · exact absurd h0 hs
    rw [segReplaceRuns, if_neg hu, if_neg hs, subRuns_cons_neg hu2, subRuns_cons_neg hs2, ih]

theorem segReplaceRuns_no_space (l : List Char) :
    ∀ c ∈ segReplaceRuns l, isSpaceChar c = false := by
  induction l using segReplaceRuns.induct with
  | case1 =>
    intro c hc
    simp only [segReplaceRuns] at hc
    cases hc
  | case2 c cs hu ih =>
    intro a ha
    rw [segReplaceRuns, if_pos hu] at ha
    rcases List.mem_cons.mp ha with h1 | h1
    · subst h1; rfl
    · exact ih a h1
  | case3 c cs hu hs ih =>
    intro a ha
    rw [segReplaceRuns, if_neg hu, if_pos hs] at ha
    rcases List.mem_cons.mp ha with h1 | h1
    · subst h1; rfl
    · exact ih a h1
  | case4 c cs hu hs ih =>
    intro a ha
    rw [segReplaceRuns, if_neg hu, if_neg hs] at ha
    rcases List.mem_cons.mp ha with h1 | h1
    · subst h1
      cases h2 : isSpaceChar a with
      | false => rfl
      | true => exact absurd h2 hs
    · exact ih a h1

/-- C9: `sanitize_filename` strips the label and replaces each maximal
run of filesystem-unsafe characters and each maximal run of whitespace
with one underscore (the two sequential substitutions equal the
single-pass segmentation); the replacement result contains no
whitespace, so "empty after stripping" is plain emptiness, and the
literal token `"category"` is returned exactly on the empty result — in
particular on every all-whitespace input. -/
theorem sanitize_filename_spec (text : List Char) :
    sanitize_filename text =
      (if segReplaceRuns (pyStrip text) = [] then "category".toList
       else segReplaceRuns (pyStrip text)) ∧
    pyStrip (segReplaceRuns (pyStrip text)) = segReplaceRuns (pyStrip text) ∧
    ((∀ c ∈ text, isSpaceChar c = true) → sanitize_filename text = "category".toList) := by
  have hseg : subRuns isSpaceChar (subRuns unsafeChar (pyStrip text)) =
      segReplaceRuns (pyStrip text) := subRuns_comp _
  refine ⟨?_, ?_, ?_⟩
  · show (if (subRuns isSpaceChar (subRuns unsafeChar (pyStrip text))).isEmpty then
        "category".toList else subRuns isSpaceChar (subRuns unsafeChar (pyStrip text))) = _
    rw [hseg]
    by_cases he : segReplaceRuns (pyStrip text) = []
    · rw [if_pos he, he]
      rfl
    · rw [if_neg he]
      have : (segReplaceRuns (pyStrip text)).isEmpty = false := by
        cases h0 : segReplaceRuns (pyStrip text) with
        | nil => exact absurd h0 he
        | cons a as => rfl
      rw [this]
      rfl
  · exact pyStrip_of_no_space (segReplaceRuns_no_space _)
  · intro hws
    have h0 : pyStrip text = [] := pyStrip_eq_nil_iff.mpr hws
    show (if (subRuns isSpaceChar (subRuns unsafeChar (pyStrip text))).isEmpty then
        "category".toList else subRuns isSpaceChar (subRuns unsafeChar (pyStrip text))) = _
    rw [h0]
    rfl

/-- Witness for `sanitize_filename_spec`: the all-whitespace input maps
to `"category"`, and the claim's example label maps as stated. -/
theorem sanitize_filename_spec_witness :
    sanitize_filename ("  ".toList) = "category".toList ∧
    sanitize_filename ("輕食/早午餐".toList) = "輕食_早午餐".toList :=
  ⟨(sanitize_filename_spec ("  ".toList)).2.2 (by decide), by decide⟩

/-! ### C8: parse_price -/

theorem charOfNat_toNat {d : Nat} (h : d < 10) : (Char.ofNat (48 + d)).toNat = 48 + d := by
  have hv : (48 + d).isValidChar := Or.inl (by omega)
  simp [Char.ofNat, hv, Char.ofNatAux, Char.toNat, UInt32.toNat, BitVec.toNat_ofNatLt]

theorem charOfNat_isDigit {d : Nat} (h : d < 10) : (Char.ofNat (48 + d)).isDigit = true := by
  have h1 := charOfNat_toNat h
  simp only [Char.isDigit, Bool.and_eq_true, decide_eq_true_eq]
  constructor
  · show (48 : UInt32) ≤ (Char.ofNat (48 + d)).val
    show (48 : UInt32).toNat ≤ (Char.ofNat (48 + d)).val.toNat
    have h48 : (48 : UInt32).toNat = 48 := rfl
    have h2 : (Char.ofNat (48 + d)).val.toNat = 48 + d := h1
    omega
  · show (Char.ofNat (48 + d)).val.toNat ≤ (57 : UInt32).toNat
    have h57 : (57 : UInt32).toNat = 57 := rfl
    have h2 : (Char.ofNat (48 + d)).val.toNat = 48 + d := h1
    omega

theorem digit_not_space {c : Char} (h : c.isDigit = true) : isSpaceChar c = false := by
  cases hs : isSpaceChar c with
  | false => rfl
  | true =>
    exfalso
    simp only [isSpaceChar, Bool.or_eq_true, decide_eq_true_eq] at hs
    rcases hs with ((((h1 | h1) | h1) | h1) | h1) | h1 <;> subst h1 <;>
      exact absurd h (by decide)

theorem natChars_all_digit (n : Nat) : ∀ c ∈ natChars n, c.isDigit = true := by
  intro c hc
  unfold natChars at hc
  by_cases h : n = 0
  · rw [if_pos h] at hc
    rcases List.mem_singleton.mp hc with rfl
    decide
  · rw [if_neg h] at hc
    simp only [List.mem_map, List.mem_reverse] at hc
    obtain ⟨d, hd, rfl⟩ := hc
    exact charOfNat_isDigit (Nat.digits_lt_base (by norm_num) hd)

theorem natChars_ne_nil (n : Nat) : natChars n ≠ [] := by
  unfold natChars
  by_cases h : n = 0
  · rw [if_pos h]
    exact List.cons_ne_nil _ _
  · rw [if_neg h]
    simp only [ne_eq, List.map_eq_nil_iff, List.reverse_eq_nil_iff]
    exact Nat.digits_ne_nil_iff_ne_zero.mpr h

theorem natChars_head_digit (n : Nat) {c : Char} (h : (natChars n).head? = some c) :
    c.isDigit = true := by
  apply natChars_all_digit n
  exact List.mem_of_mem_head? h

theorem commaRev_ne_nil {x : List Char} (h : x ≠ []) : commaRev x ≠ [] := by
  induction x using commaRev.induct with
  | case1 a b c d rest ih =>
    rw [commaRev]
    exact List.cons_ne_nil _ _
  | case2 l hl =>
    rw [commaRev]
    · exact h
    · exact hl

theorem commaRev_mem {x : List Char} {c : Char} (h : c ∈ commaRev x) : c ∈ x ∨ c = ',' := by
  induction x using commaRev.induct with
  | case1 a b c' d rest ih =>
    rw [commaRev] at h
    rcases List.mem_cons.mp h with h1 | h1
    · exact Or.inl (by rw [h1]; exact List.mem_cons_self _ _)
    rcases List.mem_cons.mp h1 with h2 | h2
    · exact Or.inl (by rw [h2]; simp)
    rcases List.mem_cons.mp h2 with h3 | h3
    · exact Or.inl (by rw [h3]; simp)
    rcases List.mem_cons.mp h3 with h4 | h4
    · exact Or.inr h4
    · rcases ih h4 with h5 | h5
      · exact Or.inl (by simp at h5 ⊢; tauto)
      · exact Or.inr h5
  | case2 l hl =>
    rw [commaRev] at h
    · exact Or.inl h
    · exact hl

theorem commaRev_getLast? (x : List Char) : (commaRev x).getLast? = x.getLast? := by
  induction x using commaRev.induct with
  | case1 a b c d rest ih =>
    rw [commaRev]
    have hne : commaRev (d :: rest) ≠ [] := commaRev_ne_nil (List.cons_ne_nil _ _)
    obtain ⟨e, tl, he⟩ := List.exists_cons_of_ne_nil hne
    rw [he, List.getLast?_cons_cons, List.getLast?_cons_cons, List.getLast?_cons_cons,
      List.getLast?_cons_cons, ← he, ih, List.getLast?_cons_cons, List.getLast?_cons_cons,
      List.getLast?_cons_cons]
  | case2 l hl =>
    rw [commaRev]
    exact hl

theorem commaRev_filter (x : List Char) :
    (commaRev x).filter (fun c => c ≠ ',') = x.filter (fun c => c ≠ ',') := by
  induction x using commaRev.induct with
  | case1 a b c d rest ih =>
    rw [commaRev]
    have hcomma : (decide ((',' : Char) ≠ ',')) = false := by decide
    simp only [List.filter_cons, hcomma, Bool.false_eq_true, if_false, ih]
  | case2 l hl =>
    rw [commaRev]
    exact hl

theorem foldr_eq_ofDigits (L : List Nat) :
    L.foldr (fun d a => 10 * a + d) 0 = Nat.ofDigits 10 L := by
  induction L with
  | nil => simp [Nat.ofDigits]
  | cons d L ih =>
    simp [Nat.ofDigits_cons, ih]
    ring

theorem digitsVal_natChars (n : Nat) : digitsVal (natChars n) = n := by
  by_cases h : n = 0
  · subst h; decide
  · unfold natChars digitsVal
    rw [if_neg h]
    rw [List.foldl_map]
    rw [List.foldl_ext (g := fun a d => 10 * a + d) _ 0 ?_]
    · rw [List.foldl_reverse, foldr_eq_ofDigits, Nat.ofDigits_digits]
    · intro a d hd
      have hlt : d < 10 := Nat.digits_lt_base (by norm_num) (List.mem_reverse.mp hd)
      rw [charOfNat_toNat hlt]
      show 10 * a + (48 + d - 48) = 10 * a + d
      omega

theorem searchPrice_skip {a : List Char} (text : List Char) (h : '$' ∉ a) :
    searchPrice (a ++ text) = searchPrice text := by
  induction a with
  | nil => rfl
  | cons c cs ih =>
    rw [List.cons_append, searchPrice]
    have hc : ¬(c = '$') := fun h0 => h (h0 ▸ List.mem_cons_self _ _)
    rw [if_neg hc]
    exact ih (fun hm => h (List.mem_cons_of_mem _ hm))

theorem matchPriceAt_none_iff (l : List Char) :
    matchPriceAt l = none ↔ ((l.dropWhile isSpaceChar).headD ' ').isDigit = false := by
  unfold matchPriceAt
  cases hd : l.dropWhile isSpaceChar with
  | nil =>
    constructor
    · intro _; rfl
    · intro _; rfl
  | cons d t =>
    simp only [List.headD_cons]
    cases hdig : d.isDigit with
    | false => simp
    | true =>
      simp only [if_true]
      constructor
      · intro h0; cases h0
      · intro h0; cases h0

theorem searchPrice_none_iff (text : List Char) :
    searchPrice text = none ↔ hasDollarWsDigit text = false := by
  induction text with
  | nil => constructor <;> intro <;> rfl
  | cons c cs ih =>
    rw [searchPrice, hasDollarWsDigit]
    by_cases hc : c = '$'
    · subst hc
      rw [if_pos rfl]
      have hdec : (decide (('$' : Char) = '$')) = true := by decide
      rw [hdec, Bool.true_and]
      cases hm : matchPriceAt cs with
      | some g =>
        have hdig : ((cs.dropWhile isSpaceChar).headD ' ').isDigit = true := by
          cases h0 : ((cs.dropWhile isSpaceChar).headD ' ').isDigit with
          | true => rfl
          | false =>
            rw [(matchPriceAt_none_iff cs).mpr h0] at hm
            cases hm
        rw [hdig, Bool.true_or]
        constructor
        · intro h0; cases h0
        · intro h0; cases h0
      | none =>
        rw [(matchPriceAt_none_iff cs).mp hm, Bool.false_or]
        exact ih
    · rw [if_neg hc]
      have hcd : (decide (c = '$')) = false := decide_eq_false_iff_not.mpr hc
      rw [hcd, Bool.false_and, Bool.false_or]
      exact ih

/-- C8 counterexample: `"$ 120"` contains no `'$'` immediately followed
by a digit ("no '$'-prefixed digit sequence occurs"), yet `_parse_price`
returns 120, not none — the regex allows whitespace between the currency
sign and the digits (the repository's own test asserts `"$ 85"` parses
to 85). -/
theorem parse_price_spaced_dollar :
    parse_price ("$ 120".toList) = some 120 ∧ hasDollarDigit ("$ 120".toList) = false := by
  decide

/-- C8 (amended): `_parse_price` returns the integer value of the first
digit sequence preceded by `'$'` with optional intervening whitespace,
commas stripped — it round-trips every natural number through
`$`-prefixed comma-grouped text — and returns none exactly when no `'$'`
is followed (after optional whitespace) by a digit; a `'$'`-free prefix
never affects the result. -/
theorem parse_price_spec :
    (∀ n : Nat, parse_price ('$' :: commaGroup n) = some n) ∧
    (∀ text : List Char, parse_price text = none ↔ hasDollarWsDigit text = false) ∧
    (∀ (a text : List Char), '$' ∉ a → parse_price (a ++ text) = parse_price text) := by
  refine ⟨?_, ?_, ?_⟩
  · intro n
    have hchars : ∀ c ∈ commaGroup n, (c.isDigit || c = ',') = true := by
      intro c hc
      unfold commaGroup at hc
      rcases commaRev_mem (List.mem_reverse.mp hc) with h1 | h1
      · rw [natChars_all_digit n c (List.mem_reverse.mp h1)]
        rfl
      · subst h1
        simp
    have hnows : ∀ c ∈ commaGroup n, isSpaceChar c = false := by
      intro c hc
      rcases Bool.or_eq_true _ _ |>.mp (hchars c hc) with h1 | h1
      · exact digit_not_space h1
      · have : c = ',' := by simpa using h1
        subst this; rfl
    have hdrop : (commaGroup n).dropWhile isSpaceChar = commaGroup n :=
      dropWhile_eq_self_of_false hnows
    have htake : (commaGroup n).takeWhile (fun c => c.isDigit || c = ',') = commaGroup n :=
      List.takeWhile_eq_self_iff.mpr hchars
    have hne : commaGroup n ≠ [] := by
      unfold commaGroup
      simp only [ne_eq, List.reverse_eq_nil_iff]
      exact commaRev_ne_nil (by simpa using natChars_ne_nil n)
    obtain ⟨d, tl, hg⟩ := List.exists_cons_of_ne_nil hne
    have hhead : (commaGroup n).head? = (natChars n).head? := by
      unfold commaGroup
      rw [List.head?_reverse, commaRev_getLast?, List.getLast?_reverse]
    have hd : d.isDigit = true := by
      apply natChars_head_digit n
      rw [← hhead, hg]
      rfl
    have hmatch : matchPriceAt (commaGroup n) = some (commaGroup n) := by
      simp only [matchPriceAt, hdrop]
      rw [hg]
      show (if d.isDigit = true then
          some ((d :: tl).takeWhile (fun c => c.isDigit || c = ',')) else none) =
        some (d :: tl)
      rw [if_pos hd, ← hg, htake]
    have hsearch : searchPrice ('$' :: commaGroup n) = some (commaGroup n) := by
      rw [searchPrice, if_pos rfl, hmatch]
    show (searchPrice ('$' :: commaGroup n)).map
        (fun g => digitsVal (g.filter (fun c => c ≠ ','))) = some n
    rw [hsearch]
    show some (digitsVal ((commaGroup n).filter (fun c => c ≠ ','))) = some n
    congr 1
    have hfil : (commaGroup n).filter (fun c => c ≠ ',') = natChars n := by
      unfold commaGroup
      rw [List.filter_reverse, commaRev_filter, ← List.filter_reverse, List.reverse_reverse]
      apply List.filter_eq_self.mpr
      intro c hc
      have hdig := natChars_all_digit n c hc
      simp only [decide_eq_true_eq]
      intro h0
      rw [h0] at hdig
      exact absurd hdig (by decide)
    rw [hfil, digitsVal_natChars]
  · intro text
    have hmap : parse_price text = none ↔ searchPrice text = none := by
      unfold parse_price
      cases searchPrice text with
      | none => constructor <;> intro <;> rfl
      | some g =>
        constructor
        · intro h0
          exact Option.noConfusion h0
        · intro h0
          exact Option.noConfusion h0
    rw [hmap]
    exact searchPrice_none_iff text
  · intro a text h
    unfold parse_price
    rw [searchPrice_skip text h]

/-- Witness for `parse_price_spec` at concrete inputs: the round trip at
1200 and prefix-skipping for `"NT$350"`. -/
theorem parse_price_spec_witness :
    parse_price ('$' :: commaGroup 1200) = some 1200 ∧
    parse_price ("NT$350".toList) = parse_price ("$350".toList) :=
  ⟨parse_price_spec.1 1200,
   parse_price_spec.2.2 ['N', 'T'] ("$350".toList) (by decide)⟩

/-! ### C3: the per-category link collector loop -/

theorem viewScanLinks_cons_none {cap : Nat} {s : List ViewStore} {lk : LinkEl}
    {rest : List LinkEl} (h : extract_store_id_from_url (absolute_store_url lk.href) = none) :
    viewScanLinks cap s (lk :: rest) = viewScanLinks cap s rest := by
  rw [viewScanLinks, h]

theorem viewScanLinks_cons_some {cap : Nat} {s : List ViewStore} {lk : LinkEl}
    {rest : List LinkEl} {sid : List Char}
    (h : extract_store_id_from_url (absolute_store_url lk.href) = some sid) :
    viewScanLinks cap s (lk :: rest) =
      (if cap ≤ (if s.any (fun st => st.store_id == sid) then s
          else s ++ [viewRecord lk sid]).length
       then (if s.any (fun st => st.store_id == sid) then s else s ++ [viewRecord lk sid])
       else viewScanLinks cap
         (if s.any (fun st => st.store_id == sid) then s else s ++ [viewRecord lk sid]) rest) := by
  rw [viewScanLinks, h]

theorem viewScanLinks_append_only (cap : Nat) (s : List ViewStore) (r : List LinkEl) :
    ∃ t, viewScanLinks cap s r = s ++ t := by
  induction r generalizing s with
  | nil => exact ⟨[], by rw [viewScanLinks, List.append_nil]⟩
  | cons lk rest ih =>
    cases hsid : extract_store_id_from_url (absolute_store_url lk.href) with
    | none =>
      rw [viewScanLinks_cons_none hsid]
      exact ih s
    | some sid =>
      rw [viewScanLinks_cons_some hsid]
      by_cases hdup : s.any (fun st => st.store_id == sid) = true
      · rw [if_pos hdup]
        by_cases hcap : cap ≤ s.length
        · rw [if_pos hcap]
          exact ⟨[], (List.append_nil s).symm⟩
        · rw [if_neg hcap]
          exact ih s
      · rw [if_neg hdup]
        by_cases hcap : cap ≤ (s ++ [viewRecord lk sid]).length
        · rw [if_pos hcap]
          exact ⟨[viewRecord lk sid], rfl⟩
        · rw [if_neg hcap]
          obtain ⟨t, ht⟩ := ih (s ++ [viewRecord lk sid])
          exact ⟨[viewRecord lk sid] ++ t, by rw [ht, List.append_assoc]⟩

theorem viewScanLinks_eq_of_length_eq {cap : Nat} {s : List ViewStore} {r : List LinkEl}
    (h : (viewScanLinks cap s r).length = s.length) : viewScanLinks cap s r = s := by
  obtain ⟨t, ht⟩ := viewScanLinks_append_only cap s r
  rw [ht] at h ⊢
  rw [List.length_append] at h
  have : t.length = 0 := by omega
  rw [List.length_eq_zero.mp this, List.append_nil]

theorem viewScanLinks_nodup {cap : Nat} {s : List ViewStore} {r : List LinkEl}
    (h : (s.map ViewStore.store_id).Nodup) :
    ((viewScanLinks cap s r).map ViewStore.store_id).Nodup := by
  induction r generalizing s with
  | nil =>
    rw [viewScanLinks]
    exact h
  | cons lk rest ih =>
    cases hsid : extract_store_id_from_url (absolute_store_url lk.href) with
    | none =>
      rw [viewScanLinks_cons_none hsid]
      exact ih h
    | some sid =>
      rw [viewScanLinks_cons_some hsid]
      by_cases hdup : s.any (fun st => st.store_id == sid) = true
      · rw [if_pos hdup]
        by_cases hcap : cap ≤ s.length
        · rw [if_pos hcap]; exact h
        · rw [if_neg hcap]; exact ih h
      · have hnodup2 : ((s ++ [viewRecord lk sid]).map ViewStore.store_id).Nodup := by
          rw [List.map_append]
          rw [List.nodup_append]
          refine ⟨h, List.nodup_singleton _, ?_⟩
          intro x hx hy
          have hx2 : x = sid := by
            simp only [List.map_singleton, List.mem_singleton] at hy
            rw [hy]; rfl
          subst hx2
          obtain ⟨st, hst, hsteq⟩ := List.mem_map.mp hx
          have := List.any_eq_false.mp (Bool.not_eq_true _ ▸ hdup) st hst
          rw [hsteq] at this
          simp at this
        rw [if_neg hdup]
        by_cases hcap : cap ≤ (s ++ [viewRecord lk sid]).length
        · rw [if_pos hcap]; exact hnodup2
        · rw [if_neg hcap]; exact ih hnodup2

theorem viewScanLinks_cap_stop {cap : Nat} {s : List ViewStore} {ls1 ls2 : List LinkEl}
    (hlen : s.length < cap) (h : cap ≤ (viewScanLinks cap s ls1).length) :
    viewScanLinks cap s (ls1 ++ ls2) = viewScanLinks cap s ls1 := by
  induction ls1 generalizing s with
  | nil =>
    rw [viewScanLinks] at h
    omega
  | cons lk rest ih =>
    rw [List.cons_append]
    cases hsid : extract_store_id_from_url (absolute_store_url lk.href) with
    | none =>
      rw [viewScanLinks_cons_none hsid] at h ⊢
      rw [viewScanLinks_cons_none hsid]
      exact ih hlen h
    | some sid =>
      rw [viewScanLinks_cons_some hsid] at h ⊢
      rw [viewScanLinks_cons_some hsid]
      by_cases hdup : s.any (fun st => st.store_id == sid) = true
      · rw [if_pos hdup] at h ⊢
        by_cases hcap : cap ≤ s.length
        · rw [if_pos hcap] at h ⊢
          rw [if_pos hcap]
        · rw [if_neg hcap] at h ⊢
          rw [if_neg hcap]
          exact ih hlen h
      · rw [if_neg hdup] at h ⊢
        by_cases hcap : cap ≤ (s ++ [viewRecord lk sid]).length
        · rw [if_pos hcap] at h ⊢
          rw [if_pos hcap]
        · rw [if_neg hcap] at h ⊢
          rw [if_neg hcap]
          have hlen2 : (s ++ [viewRecord lk sid]).length < cap := by omega
          exact ih hlen2 h

theorem viewLoop_length_le (cap fuel : Nat) (s : List ViewStore) (prev stale : Nat)
    (rounds : List (List LinkEl)) :
    (viewLoop cap fuel s prev stale rounds).length ≤ cap := by
  induction fuel generalizing s prev stale rounds with
  | zero =>
    rw [viewLoop]
    exact List.length_take_le _ _
  | succ fuel ih =>
    rw [viewLoop]
    by_cases hcap : cap ≤ s.length
    · rw [if_pos hcap]
      exact List.length_take_le _ _
    · rw [if_neg hcap]
      by_cases hst : (viewScanLinks cap s (rounds.headD [])).length = prev
      · rw [if_pos hst]
        by_cases h3 : 3 ≤ stale + 1
        · rw [if_pos h3]
          exact List.length_take_le _ _
        · rw [if_neg h3]
          exact ih _ _ _ _
      · rw [if_neg hst]
        exact ih _ _ _ _

theorem viewLoop_nodup (cap fuel : Nat) (s : List ViewStore) (prev stale : Nat)
    (rounds : List (List LinkEl)) (h : (s.map ViewStore.store_id).Nodup) :
    ((viewLoop cap fuel s prev stale rounds).map ViewStore.store_id).Nodup := by
  induction fuel generalizing s prev stale rounds with
  | zero =>
    rw [viewLoop]
    exact ((List.take_sublist _ _).map _).nodup h
  | succ fuel ih =>
    rw [viewLoop]
    by_cases hcap : cap ≤ s.length
    · rw [if_pos hcap]
      exact ((List.take_sublist _ _).map _).nodup h
    · rw [if_neg hcap]
      have hsc : ((viewScanLinks cap s (rounds.headD [])).map ViewStore.store_id).Nodup :=
        viewScanLinks_nodup h
      by_cases hst : (viewScanLinks cap s (rounds.headD [])).length = prev
      · rw [if_pos hst]
        by_cases h3 : 3 ≤ stale + 1
        · rw [if_pos h3]
          exact ((List.take_sublist _ _).map _).nodup hsc
        · rw [if_neg h3]
          exact ih _ _ _ _ hsc
      · rw [if_neg hst]
        exact ih _ _ _ _ hsc

theorem viewLoop_take_fuel (cap fuel : Nat) (s : List ViewStore) (prev stale : Nat)
    (rounds : List (List LinkEl)) :
    viewLoop cap fuel s prev stale rounds = viewLoop cap fuel s prev stale (rounds.take fuel) := by
  induction fuel generalizing s prev stale rounds with
  | zero => rw [viewLoop, viewLoop]
  | succ fuel ih =>
    have hhead : (rounds.take (fuel + 1)).headD [] = rounds.headD [] := by
      cases rounds <;> rfl
    have htail : (rounds.take (fuel + 1)).tail = rounds.tail.take fuel := by
      cases rounds with
      | nil => simp
      | cons r rs => rfl
    rw [viewLoop, viewLoop, hhead, htail]
    by_cases hcap : cap ≤ s.length
    · rw [if_pos hcap, if_pos hcap]
    · rw [if_neg hcap, if_neg hcap]
      by_cases hst : (viewScanLinks cap s (rounds.headD [])).length = prev
      · rw [if_pos hst, if_pos hst]
        by_cases h3 : 3 ≤ stale + 1
        · rw [if_pos h3, if_pos h3]
        · rw [if_neg h3, if_neg h3]
          exact ih _ _ _ _
      · rw [if_neg hst, if_neg hst]
        exact ih _ _ _ _

/-- C3: the per-category link collector (i) returns at most `cap`
records, (ii) unique by store identifier, (iii) inspects at most 20
scroll rounds (rounds beyond the 20th never affect the result), (iv)
stops scanning a round early once the accumulation reaches the cap
(later links of the round cannot change the result), (v) stops entirely
after 3 consecutive rounds without growth, ignoring all later rounds,
and (vi) resets the stale counter to 0 on any round that grows; records
are only ever appended, so the result is in first-seen order. -/
theorem collect_view_loop_spec :
    (∀ (cap : Nat) (rounds : List (List LinkEl)),
      (collect_store_links_from_current_view cap rounds).length ≤ cap) ∧
    (∀ (cap : Nat) (rounds : List (List LinkEl)),
      ((collect_store_links_from_current_view cap rounds).map ViewStore.store_id).Nodup) ∧
    (∀ (cap : Nat) (rounds : List (List LinkEl)),
      collect_store_links_from_current_view cap rounds =
        collect_store_links_from_current_view cap (rounds.take 20)) ∧
    (∀ (cap : Nat) (s : List ViewStore) (ls1 ls2 : List LinkEl), s.length < cap →
      cap ≤ (viewScanLinks cap s ls1).length →
      viewScanLinks cap s (ls1 ++ ls2) = viewScanLinks cap s ls1) ∧
    (∀ (fuel cap : Nat) (s : List ViewStore) (r1 r2 r3 : List LinkEl)
        (rest : List (List LinkEl)),
      (viewScanLinks cap s r1).length = s.length →
      (viewScanLinks cap s r2).length = s.length →
      (viewScanLinks cap s r3).length = s.length →
      viewLoop cap (fuel + 3) s s.length 0 (r1 :: r2 :: r3 :: rest) = s.take cap) ∧
    (∀ (fuel cap : Nat) (s : List ViewStore) (prev stale : Nat) (r : List LinkEl)
        (rest : List (List LinkEl)),
      (viewScanLinks cap s r).length ≠ prev → ¬ cap ≤ s.length →
      viewLoop cap (fuel + 1) s prev stale (r :: rest) =
        viewLoop cap fuel (viewScanLinks cap s r) (viewScanLinks cap s r).length 0 rest) ∧
    (∀ (cap : Nat) (s : List ViewStore) (r : List LinkEl),
      ∃ t, viewScanLinks cap s r = s ++ t) := by
  refine ⟨?_, ?_, ?_, ?_, ?_, ?_, ?_⟩
  · intro cap rounds
    exact viewLoop_length_le cap 20 [] 0 0 rounds
  · intro cap rounds
    exact viewLoop_nodup cap 20 [] 0 0 rounds List.nodup_nil
  · intro cap rounds
    exact viewLoop_take_fuel cap 20 [] 0 0 rounds
  · intro cap s ls1 ls2 hlen h
    exact viewScanLinks_cap_stop hlen h
  · intro fuel cap s r1 r2 r3 rest h1 h2 h3
    by_cases hcap : cap ≤ s.length
    · rw [viewLoop, if_pos hcap]
    · have e1 : viewScanLinks cap s r1 = s := viewScanLinks_eq_of_length_eq h1
      have e2 : viewScanLinks cap s r2 = s := viewScanLinks_eq_of_length_eq h2
      have e3 : viewScanLinks cap s r3 = s := viewScanLinks_eq_of_length_eq h3
      rw [viewLoop, if_neg hcap]
      simp only [List.headD_cons, List.tail_cons, e1]
      rw [if_pos trivial, if_neg (by omega : ¬ (3:Nat) ≤ 0 + 1)]
      rw [viewLoop, if_neg hcap]
      simp only [List.headD_cons, List.tail_cons, e2]
      rw [if_pos trivial, if_neg (by omega : ¬ (3:Nat) ≤ 0 + 1 + 1)]
      rw [viewLoop, if_neg hcap]
      simp only [List.headD_cons, List.tail_cons, e3]
      rw [if_pos trivial, if_pos (by omega : (3:Nat) ≤ 0 + 1 + 1 + 1)]
  · intro fuel cap s prev stale r rest hne hcap
    rw [viewLoop, if_neg hcap]
    simp only [List.headD_cons, List.tail_cons]
    rw [if_neg hne]
  · intro cap s r
    exact viewScanLinks_append_only cap s r

/-- Witness for `collect_view_loop_spec`: three empty rounds from the
empty state stop the loop with an empty result regardless of the
remaining rounds, and the within-round cap stop at a concrete page
state. -/
theorem collect_view_loop_spec_witness :
    viewLoop 5 3 [] 0 0
        [[], [], [], [⟨"/tw/store/aaa/ABCDEFGHIJKLMNOPQRST".toList, ['X']⟩]] = [] ∧
    viewScanLinks 1 []
        ([⟨"/tw/store/aaa/ABCDEFGHIJKLMNOPQRST".toList, ['X']⟩] ++
          [⟨"/tw/store/bbb/BBCDEFGHIJKLMNOPQRST".toList, ['Y']⟩]) =
      viewScanLinks 1 [] [⟨"/tw/store/aaa/ABCDEFGHIJKLMNOPQRST".toList, ['X']⟩] :=
  ⟨collect_view_loop_spec.2.2.2.2.1 0 5 [] [] [] [] _ rfl rfl rfl,
   collect_view_loop_spec.2.2.2.1 1 [] _ _ (by decide) (by decide)⟩

/-! ### C1: a category whose selection always fails -/

theorem find?_key_update {k k' : List Char} {v : List MRec} (h : k' ≠ k) :
    ∀ d : List (List Char × List MRec),
      (d.map (fun p => if p.1 == k' then (k', v) else p)).find? (fun p => p.1 == k) =
        d.find? (fun p => p.1 == k) := by
  intro d
  induction d with
  | nil => rfl
  | cons q rest ih =>
    rw [List.map_cons, List.find?_cons, List.find?_cons]
    by_cases hq : (q.1 == k') = true
    · rw [if_pos hq]
      have hq1 : q.1 = k' := by simpa using hq
      have hkne : ((k', v).1 == k) = false := by
        simp only [beq_eq_false_iff_ne, ne_eq]
        exact h
      have hqne : (q.1 == k) = false := by
        rw [hq1]
        simp only [beq_eq_false_iff_ne, ne_eq]
        exact h
      rw [hkne, hqne]
      exact ih
    · rw [if_neg hq]
      cases hqk : (q.1 == k) with
      | false => exact ih
      | true => rfl

theorem dictFind_insert_ne {d : List (List Char × List MRec)} {k k' : List Char}
    {v : List MRec} (h : k' ≠ k) : dictFind k (dictInsert d k' v) = dictFind k d := by
  unfold dictFind dictInsert
  by_cases ha : d.any (fun p => p.1 == k') = true
  · rw [if_pos ha]
    rw [find?_key_update h d]
  · rw [if_neg ha, List.find?_append]
    have hone : ([(k', v)].find? (fun p => p.1 == k)) = none := by
      rw [List.find?_cons]
      have : ((k', v).1 == k) = false := by
        simp only [beq_eq_false_iff_ne, ne_eq]
        exact h
      rw [this]
      rfl
    rw [hone]
    cases d.find? (fun p => p.1 == k) <;> rfl

theorem crawlOne_fail {env : CrawlEnv} {passIdx : Nat} {cat : Tag} {idx : Nat}
    {st : CrawlState} (h0 : env.selectOk passIdx cat.label 0 = false)
    (h1 : env.selectOk passIdx cat.label 1 = false) :
    crawlOne env passIdx cat idx st = (0, st) := by
  unfold crawlOne
  rw [h0, h1]
  rfl

theorem crawlOne_state {env : CrawlEnv} {passIdx : Nat} {cat : Tag} {idx : Nat}
    {st : CrawlState} {L : List Char} (hne : cat.label ≠ L)
    (h : dictFind L st.categorized = none) :
    dictFind L (crawlOne env passIdx cat idx st).2.categorized = none := by
  unfold crawlOne
  by_cases hsel : (env.selectOk passIdx cat.label 0 || env.selectOk passIdx cat.label 1) = true
  · rw [if_pos hsel]
    exact (dictFind_insert_ne hne).trans h
  · rw [if_neg hsel]
    exact h

theorem crawlOne_absent {env : CrawlEnv} {passIdx : Nat} {cat : Tag} {idx : Nat}
    {st : CrawlState} {L : List Char}
    (hfail : env.selectOk passIdx L 0 = false ∧ env.selectOk passIdx L 1 = false)
    (h : dictFind L st.categorized = none) :
    dictFind L (crawlOne env passIdx cat idx st).2.categorized = none := by
  by_cases hlab : cat.label = L
  · rw [crawlOne_fail (hlab ▸ hfail.1) (hlab ▸ hfail.2)]
    exact h
  · exact crawlOne_state hlab h

theorem firstPass_absent {env : CrawlEnv} {L : List Char}
    (hfail : env.selectOk 0 L 0 = false ∧ env.selectOk 0 L 1 = false) :
    ∀ (cats : List Tag) (idx : Nat) (st : CrawlState) (empties : List Tag),
      dictFind L st.categorized = none →
      dictFind L (firstPass env idx cats st empties).1.categorized = none := by
  intro cats
  induction cats with
  | nil =>
    intro idx st empties h
    exact h
  | cons c rest ih =>
    intro idx st empties h
    rw [firstPass]
    exact ih _ _ _ (crawlOne_absent hfail h)

theorem retryPass_absent {env : CrawlEnv} {crawlable : List Tag} {L : List Char}
    (hfail : env.selectOk 1 L 0 = false ∧ env.selectOk 1 L 1 = false) :
    ∀ (retryList : List Tag) (st : CrawlState),
      dictFind L st.categorized = none →
      dictFind L (retryPass env crawlable retryList st).categorized = none := by
  intro retryList
  induction retryList with
  | nil =>
    intro st h
    exact h
  | cons c rest ih =>
    intro st h
    rw [retryPass]
    exact ih _ (crawlOne_absent hfail h)

theorem crawlOne_files_mem {env : CrawlEnv} {passIdx : Nat} {cat : Tag} {idx : Nat}
    {st : CrawlState} {f : FileOut} (h : f ∈ (crawlOne env passIdx cat idx st).2.files) :
    f ∈ st.files ∨ f.fname = mkCatFileName idx cat.label := by
  unfold crawlOne at h
  by_cases hsel : (env.selectOk passIdx cat.label 0 || env.selectOk passIdx cat.label 1) = true
  · rw [if_pos hsel] at h
    rcases List.mem_append.mp h with h1 | h1
    · left; exact h1
    · right
      have : f = ⟨mkCatFileName idx cat.label, _⟩ := List.mem_singleton.mp h1
      rw [this]
  · rw [if_neg hsel] at h
    left; exact h

theorem crawlOne_files_other {env : CrawlEnv} {passIdx : Nat} {c : Tag} {idx : Nat}
    {st : CrawlState} {L : List Char}
    (hfail : env.selectOk passIdx L 0 = false ∧ env.selectOk passIdx L 1 = false)
    {f : FileOut} (h : f ∈ (crawlOne env passIdx c idx st).2.files) :
    f ∈ st.files ∨ ∃ i lab, lab ≠ L ∧ f.fname = mkCatFileName i lab := by
  by_cases hlab : c.label = L
  · rw [crawlOne_fail (hlab ▸ hfail.1) (hlab ▸ hfail.2)] at h
    left
    exact h
  · rcases crawlOne_files_mem h with h1 | h1
    · left
      exact h1
    · right
      exact ⟨idx, c.label, hlab, h1⟩

theorem firstPass_files_other {env : CrawlEnv} {L : List Char}
    (hfail : env.selectOk 0 L 0 = false ∧ env.selectOk 0 L 1 = false) :
    ∀ (cats : List Tag) (idx : Nat) (st : CrawlState) (empties : List Tag) (f : FileOut),
      f ∈ (firstPass env idx cats st empties).1.files →
      f ∈ st.files ∨ ∃ i lab, lab ≠ L ∧ f.fname = mkCatFileName i lab := by
  intro cats
  induction cats with
  | nil =>
    intro idx st empties f h
    left
    exact h
  | cons c rest ih =>
    intro idx st empties f h
    rw [firstPass] at h
    rcases ih _ _ _ f h with h1 | h1
    · exact crawlOne_files_other hfail h1
    · right
      exact h1

theorem retryPass_files_other {env : CrawlEnv} {crawlable : List Tag} {L : List Char}
    (hfail : env.selectOk 1 L 0 = false ∧ env.selectOk 1 L 1 = false) :
    ∀ (retryList : List Tag) (st : CrawlState) (f : FileOut),
      f ∈ (retryPass env crawlable retryList st).files →
      f ∈ st.files ∨ ∃ i lab, lab ≠ L ∧ f.fname = mkCatFileName i lab := by
  intro retryList
  induction retryList with
  | nil =>
    intro st f h
    left
    exact h
  | cons c rest ih =>
    intro st f h
    rw [retryPass] at h
    rcases ih _ f h with h1 | h1
    · exact crawlOne_files_other hfail h1
    · right
      exact h1

/-- C1 counterexample: a single category whose selection fails on both
attempts of both passes is entirely absent from the returned mapping —
`crawl_stores_by_category` returns the empty mapping, not a mapping with
the category's label bound to an empty list. -/
theorem failed_selection_category_missing :
    dictFind ['A'] (crawl_stores_by_category envAllFail [⟨['A'], ['t']⟩]).1 = none ∧
    (crawl_stores_by_category envAllFail [⟨['A'], ['t']⟩]).1 = [] ∧
    (crawl_stores_by_category envAllFail [⟨['A'], ['t']⟩]).2 = [] := by decide

/-- C1 (amended): a category whose selection fails on both attempts of
the first-pass cycle and again on both attempts of the retry cycle is
absent from the CategorizedResult returned by `crawl_stores_by_category`:
its label is not mapped at all (not bound to an empty list), and no
per-category file is recorded for it — every file of the run was written
with the index and label of a category whose label differs from the
failed one; the run still returns normally — selection failure is
recorded, not raised. -/
theorem failed_selection_category_absent (env : CrawlEnv) (cats : List Tag) (cat : Tag)
    (hmem : cat ∈ crawlableOf cats)
    (h00 : env.selectOk 0 cat.label 0 = false) (h01 : env.selectOk 0 cat.label 1 = false)
    (h10 : env.selectOk 1 cat.label 0 = false) (h11 : env.selectOk 1 cat.label 1 = false) :
    dictFind cat.label (crawl_stores_by_category env cats).1 = none ∧
    (∀ p ∈ (crawl_stores_by_category env cats).1, p.1 ≠ cat.label) ∧
    (∀ f ∈ (crawl_stores_by_category env cats).2,
      ∃ i lab, lab ≠ cat.label ∧ f.fname = mkCatFileName i lab) := by
  have habs : dictFind cat.label (crawl_stores_by_category env cats).1 = none := by
    unfold crawl_stores_by_category
    exact retryPass_absent ⟨h10, h11⟩ _ _ (firstPass_absent ⟨h00, h01⟩ _ _ _ _ rfl)
  refine ⟨habs, ?_, ?_⟩
  · intro p hp hlab
    have hnone : (crawl_stores_by_category env cats).1.find? (fun q => q.1 == cat.label) = none := by
      unfold dictFind at habs
      cases hfind : (crawl_stores_by_category env cats).1.find? (fun q => q.1 == cat.label) with
      | none => rfl
      | some q =>
        rw [hfind] at habs
        cases habs
    have hfalse := List.find?_eq_none.mp hnone p hp
    rw [hlab] at hfalse
    simp at hfalse
  · intro f hf
    unfold crawl_stores_by_category at hf
    rcases retryPass_files_other ⟨h10, h11⟩ _ _ f hf with h1 | h1
    · rcases firstPass_files_other ⟨h00, h01⟩ _ _ _ _ f h1 with h2 | h2
      · cases h2
      · exact h2
    · exact h1

/-- Witness for `failed_selection_category_absent` at a concrete
environment and category list: the failed label is unmapped and every
written file (there are none here) is for another label. -/
theorem failed_selection_category_absent_witness :
    dictFind ['B'] (crawl_stores_by_category envAllFail [⟨['B'], ['u']⟩]).1 = none ∧
    ∀ f ∈ (crawl_stores_by_category envAllFail [⟨['B'], ['u']⟩]).2,
      ∃ i lab, lab ≠ ['B'] ∧ f.fname = mkCatFileName i lab := by
  have h := failed_selection_category_absent envAllFail [⟨['B'], ['u']⟩] ⟨['B'], ['u']⟩
    (by decide) rfl rfl rfl rfl
  exact ⟨h.1, h.2.2⟩

/-! ### C4: exclusion of blocked categories and per-category file numbering -/

theorem dictInsert_mem {d : List (List Char × List MRec)} {k : List Char} {v : List MRec}
    {p : List Char × List MRec} (h : p ∈ dictInsert d k v) : p ∈ d ∨ p = (k, v) := by
  unfold dictInsert at h
  by_cases ha : d.any (fun q => q.1 == k) = true
  · rw [if_pos ha] at h
    obtain ⟨q, hq, hmap⟩ := List.mem_map.mp h
    by_cases hqk : (q.1 == k) = true
    · rw [if_pos hqk] at hmap
      right
      exact hmap.symm
    · rw [if_neg hqk] at hmap
      left
      exact hmap ▸ hq
  · rw [if_neg ha] at h
    rcases List.mem_append.mp h with h1 | h1
    · left; exact h1
    · right; simpa using h1

theorem crawlOne_categorized_mem {env : CrawlEnv} {passIdx : Nat} {cat : Tag} {idx : Nat}
    {st : CrawlState} {p : List Char × List MRec}
    (h : p ∈ (crawlOne env passIdx cat idx st).2.categorized) :
    p ∈ st.categorized ∨ p.1 = cat.label := by
  unfold crawlOne at h
  by_cases hsel : (env.selectOk passIdx cat.label 0 || env.selectOk passIdx cat.label 1) = true
  · rw [if_pos hsel] at h
    rcases dictInsert_mem h with h1 | h1
    · left; exact h1
    · right; rw [h1]
  · rw [if_neg hsel] at h
    left; exact h

theorem firstPass_categorized_mem (env : CrawlEnv) :
    ∀ (cats : List Tag) (idx : Nat) (st : CrawlState) (empties : List Tag)
      (p : List Char × List MRec),
      p ∈ (firstPass env idx cats st empties).1.categorized →
      p ∈ st.categorized ∨ ∃ c ∈ cats, p.1 = c.label := by
  intro cats
  induction cats with
  | nil =>
    intro idx st empties p h
    left; exact h
  | cons c rest ih =>
    intro idx st empties p h
    rw [firstPass] at h
    rcases ih _ _ _ p h with h1 | ⟨c', hc', hlab⟩
    · rcases crawlOne_categorized_mem h1 with h2 | h2
      · left; exact h2
      · right; exact ⟨c, List.mem_cons_self _ _, h2⟩
    · right; exact ⟨c', List.mem_cons_of_mem _ hc', hlab⟩

theorem firstPass_files_mem (env : CrawlEnv) :
    ∀ (cats : List Tag) (idx : Nat) (st : CrawlState) (empties : List Tag) (f : FileOut),
      f ∈ (firstPass env idx cats st empties).1.files →
      f ∈ st.files ∨ ∃ j c, cats.get? j = some c ∧ f.fname = mkCatFileName (idx + j) c.label := by
  intro cats
  induction cats with
  | nil =>
    intro idx st empties f h
    left; exact h
  | cons c rest ih =>
    intro idx st empties f h
    rw [firstPass] at h
    rcases ih _ _ _ f h with h1 | ⟨j, c', hj, hname⟩
    · rcases crawlOne_files_mem h1 with h2 | h2
      · left; exact h2
      · right
        refine ⟨0, c, rfl, ?_⟩
        rw [Nat.add_zero]
        exact h2
    · right
      refine ⟨j + 1, c', hj, ?_⟩
      have : idx + 1 + j = idx + (j + 1) := by omega
      rw [← this]
      exact hname

theorem firstPass_empties_mem (env : CrawlEnv) :
    ∀ (cats : List Tag) (idx : Nat) (st : CrawlState) (empties : List Tag) (c : Tag),
      c ∈ (firstPass env idx cats st empties).2 → c ∈ empties ∨ c ∈ cats := by
  intro cats
  induction cats with
  | nil =>
    intro idx st empties c h
    left; exact h
  | cons c0 rest ih =>
    intro idx st empties c h
    rw [firstPass] at h
    rcases ih _ _ _ c h with h1 | h1
    · by_cases hz : (crawlOne env 0 c0 idx st).1 = 0
      · rw [if_pos hz] at h1
        rcases List.mem_append.mp h1 with h2 | h2
        · left; exact h2
        · right
          have : c = c0 := List.mem_singleton.mp h2
          rw [this]
          exact List.mem_cons_self _ _
      · rw [if_neg hz] at h1
        left; exact h1
    · right; exact List.mem_cons_of_mem _ h1

theorem retryPass_categorized_mem (env : CrawlEnv) (crawlable : List Tag) :
    ∀ (retryList : List Tag) (st : CrawlState) (p : List Char × List MRec),
      p ∈ (retryPass env crawlable retryList st).categorized →
      p ∈ st.categorized ∨ ∃ c ∈ retryList, p.1 = c.label := by
  intro retryList
  induction retryList with
  | nil =>
    intro st p h
    left; exact h
  | cons c rest ih =>
    intro st p h
    rw [retryPass] at h
    rcases ih _ p h with h1 | ⟨c', hc', hlab⟩
    · rcases crawlOne_categorized_mem h1 with h2 | h2
      · left; exact h2
      · right; exact ⟨c, List.mem_cons_self _ _, h2⟩
    · right; exact ⟨c', List.mem_cons_of_mem _ hc', hlab⟩

theorem retryPass_files_mem (env : CrawlEnv) (crawlable : List Tag) :
    ∀ (retryList : List Tag) (st : CrawlState) (f : FileOut),
      f ∈ (retryPass env crawlable retryList st).files →
      f ∈ st.files ∨ ∃ c ∈ retryList,
        f.fname = mkCatFileName (crawlable.findIdx (fun t => t.label == c.label) + 1) c.label := by
  intro retryList
  induction retryList with
  | nil =>
    intro st f h
    left; exact h
  | cons c rest ih =>
    intro st f h
    rw [retryPass] at h
    rcases ih _ f h with h1 | ⟨c', hc', hname⟩
    · rcases crawlOne_files_mem h1 with h2 | h2
      · left; exact h2
      · right; exact ⟨c, List.mem_cons_self _ _, h2⟩
    · right; exact ⟨c', List.mem_cons_of_mem _ hc', hname⟩

theorem crawlableOf_not_excluded {cats : List Tag} {c : Tag} (h : c ∈ crawlableOf cats) :
    excludedTags.contains c.label = false := by
  have := List.of_mem_filter h
  simpa using this

theorem findIdx_label {crawlable : List Tag} {c : Tag} (h : c ∈ crawlable) :
    ∃ hlt : crawlable.findIdx (fun t => t.label == c.label) < crawlable.length,
      (crawlable.get ⟨crawlable.findIdx (fun t => t.label == c.label), hlt⟩).label = c.label := by
  have hex : ∃ x ∈ crawlable, (fun t => t.label == c.label) x = true := ⟨c, h, by simp⟩
  have hlt := List.findIdx_lt_length_of_exists hex
  refine ⟨hlt, ?_⟩
  have hx : (fun t => t.label == c.label)
      (crawlable.get ⟨crawlable.findIdx (fun t => t.label == c.label), hlt⟩) = true :=
    List.findIdx_get (w := hlt)
  simpa using hx

/-- C4: however the category set was determined — afternoon-tea mode, a
requested allow-list, or plain feed discovery — no excluded-category
label (e.g. 生鮮雜貨) is ever bound in the returned mapping or written
as a per-category file, and every written file is named by the 1-based
position, among the crawled (non-excluded) categories, of the category
whose label it carries. -/
theorem category_exclusion_and_numbering (afternoon_tea_only : Bool)
    (categories : List (List Char)) (chips : List Chip) (env : CrawlEnv) :
    (∀ p ∈ (crawl_stores_by_category env (categories_to_crawl_of afternoon_tea_only
        categories (discover_category_tags_from_feed chips))).1,
      excludedTags.contains p.1 = false) ∧
    (∀ f ∈ (crawl_stores_by_category env (categories_to_crawl_of afternoon_tea_only
        categories (discover_category_tags_from_feed chips))).2,
      ∃ i, ∃ hlt : i < (crawlableOf (categories_to_crawl_of afternoon_tea_only
          categories (discover_category_tags_from_feed chips))).length,
        excludedTags.contains ((crawlableOf (categories_to_crawl_of afternoon_tea_only
          categories (discover_category_tags_from_feed chips))).get ⟨i, hlt⟩).label = false ∧
        f.fname = mkCatFileName (i + 1) ((crawlableOf (categories_to_crawl_of afternoon_tea_only
          categories (discover_category_tags_from_feed chips))).get ⟨i, hlt⟩).label) := by
  constructor
  · intro p hp
    unfold crawl_stores_by_category at hp
    rcases retryPass_categorized_mem env _ _ _ p hp with h1 | ⟨c, hc, hlab⟩
    · rcases firstPass_categorized_mem env _ _ _ _ p h1 with h2 | ⟨c, hc, hlab⟩
      · cases h2
      · rw [hlab]
        exact crawlableOf_not_excluded hc
    · rcases firstPass_empties_mem env _ _ _ _ c hc with h2 | h2
      · cases h2
      · rw [hlab]
        exact crawlableOf_not_excluded h2
  · intro f hf
    unfold crawl_stores_by_category at hf
    rcases retryPass_files_mem env _ _ _ f hf with h1 | ⟨c, hc, hname⟩
    · rcases firstPass_files_mem env _ _ _ _ f h1 with h2 | ⟨j, c, hj, hname⟩
      · cases h2
      · obtain ⟨hlt, hget⟩ := List.get?_eq_some.mp hj
        refine ⟨j, hlt, ?_, ?_⟩
        · rw [hget]
          exact crawlableOf_not_excluded (List.get?_mem hj)
        · rw [hget, hname]
          have : 1 + j = j + 1 := by omega
          rw [this]
    · have hcc : c ∈ crawlableOf (categories_to_crawl_of afternoon_tea_only
          categories (discover_category_tags_from_feed chips)) := by
        rcases firstPass_empties_mem env _ _ _ _ c hc with h2 | h2
        · cases h2
        · exact h2
      obtain ⟨hlt, hget⟩ := findIdx_label hcc
      refine ⟨_, hlt, ?_, ?_⟩
      · exact crawlableOf_not_excluded (List.get_mem _ _ _)
      · rw [hname, hget]

/-- Witness for `category_exclusion_and_numbering` on the spec's
end-to-end scenario: discovery returns 速食, 生鮮雜貨, 早餐和早午餐 in
that order; the output keeps only the two non-grocery categories, the
files are `01_速食.json` and `02_早餐和早午餐.json`, and no file for the
grocery category exists. -/
theorem category_exclusion_and_numbering_witness :
    excludedTags.contains ("速食".toList) = false ∧
    ((crawl_stores_by_category
        ⟨fun _ _ _ => true, fun _ _ => [⟨"AAAA1111BBBB2222cccc".toList, ['N'], ['u']⟩]⟩
        (categories_to_crawl_of false []
          (discover_category_tags_from_feed
            [⟨"search-home-item-速食".toList, some ("速食".toList)⟩,
             ⟨"search-home-item-生鮮雜貨".toList, some ("生鮮雜貨".toList)⟩,
             ⟨"search-home-item-早餐和早午餐".toList, some ("早餐和早午餐".toList)⟩]))).2).map
        FileOut.fname =
      ["01_速食.json".toList, "02_早餐和早午餐.json".toList] :=
  ⟨by
    have h := (category_exclusion_and_numbering false []
      [⟨"search-home-item-速食".toList, some ("速食".toList)⟩,
       ⟨"search-home-item-生鮮雜貨".toList, some ("生鮮雜貨".toList)⟩,
       ⟨"search-home-item-早餐和早午餐".toList, some ("早餐和早午餐".toList)⟩]
      ⟨fun _ _ _ => true, fun _ _ => [⟨"AAAA1111BBBB2222cccc".toList, ['N'], ['u']⟩]⟩).1
      ("速食".toList,
        [⟨['N'], ['u'], some ("速食".toList)⟩]) (by decide)
    exact h,
   by decide⟩

/-! ### C7: the store-identifier extractor -/

theorem takeWhile_slug {s : List Char} (hs : ∀ c ∈ s, c ≠ '/') (t : List Char) :
    (s ++ '/' :: t).takeWhile (fun c => c ≠ '/') = s ∧
    (s ++ '/' :: t).dropWhile (fun c => c ≠ '/') = '/' :: t := by
  induction s with
  | nil =>
    have hsl : (decide (('/' : Char) ≠ '/')) = false := by decide
    constructor
    · rw [List.nil_append, List.takeWhile_cons, hsl]
      rfl
    · rw [List.nil_append, List.dropWhile_cons, hsl]
      rfl
  | cons c cs ih =>
    have hc : c ≠ '/' := hs c (List.mem_cons_self _ _)
    have hp : (decide (c ≠ '/')) = true := by simpa using hc
    have ih2 := ih (fun x hx => hs x (List.mem_cons_of_mem _ hx))
    constructor
    · rw [List.cons_append, List.takeWhile_cons, hp, if_pos rfl, ih2.1]
    · rw [List.cons_append, List.dropWhile_cons, hp, if_pos rfl, ih2.2]

theorem takeWhile_append_all {p : Char → Bool} {i : List Char}
    (hi : ∀ c ∈ i, p c = true) (b : List Char) :
    (i ++ b).takeWhile p = i ++ b.takeWhile p := by
  induction i with
  | nil => rfl
  | cons c cs ih =>
    rw [List.cons_append, List.takeWhile_cons, hi c (List.mem_cons_self _ _), if_pos rfl,
      ih (fun x hx => hi x (List.mem_cons_of_mem _ hx)), List.cons_append]

theorem matchStoreIdAt_spec {s i b : List Char} (hs0 : s ≠ []) (hs : ∀ c ∈ s, c ≠ '/')
    (hi : ∀ c ∈ i, allowedIdChar c = true) (hlen : 20 ≤ i.length) :
    matchStoreIdAt (s ++ '/' :: (i ++ b)) = some (i ++ b.takeWhile allowedIdChar) := by
  obtain ⟨htake, hdrop⟩ := takeWhile_slug hs (i ++ b)
  unfold matchStoreIdAt
  rw [htake, hdrop]
  have hempty : s.isEmpty = false := by
    cases s with
    | nil => exact absurd rfl hs0
    | cons a as => rfl
  show (if s.isEmpty = true then none
    else if 20 ≤ ((i ++ b).takeWhile allowedIdChar).length
      then some ((i ++ b).takeWhile allowedIdChar) else none) =
    some (i ++ b.takeWhile allowedIdChar)
  rw [hempty, if_neg (by decide : ¬(false = true)), takeWhile_append_all hi b]
  rw [if_pos (by rw [List.length_append]; omega)]

theorem searchStorePat_hit {m : List Char → Option (List Char)} {u : List Char}
    (h : storeLit.isPrefixOf u = true) {r : List Char}
    (hm : m (u.drop storeLit.length) = some r) : searchStorePat m u = some r := by
  cases u with
  | nil => cases h
  | cons c cs =>
    rw [searchStorePat, if_pos h, hm]

theorem searchStorePat_skip {m : List Char → Option (List Char)} {x rest : List Char}
    (hx : ∀ j, j < x.length → storeLit.isPrefixOf (x.drop j ++ rest) = false) :
    searchStorePat m (x ++ rest) = searchStorePat m rest := by
  induction x with
  | nil => rfl
  | cons c cs ih =>
    rw [List.cons_append, searchStorePat]
    have h0 : storeLit.isPrefixOf (c :: (cs ++ rest)) = false := by
      have := hx 0 (by rw [List.length_cons]; omega)
      simpa using this
    rw [h0]
    simp only [Bool.false_eq_true, if_false]
    exact ih (fun j hj => by
      have := hx (j + 1) (by rw [List.length_cons]; omega)
      simpa using this)

theorem storeLit_isPrefixOf_append (z : List Char) :
    storeLit.isPrefixOf (storeLit ++ z) = true := by
  rw [List.isPrefixOf_iff_prefix]
  exact List.prefix_append _ _

theorem dropWhile_head_false {p : Char → Bool} :
    ∀ {l : List Char} {c0 : Char} {after : List Char},
      l.dropWhile p = c0 :: after → p c0 = false := by
  intro l
  induction l with
  | nil =>
    intro c0 after h
    cases h
  | cons a as ih =>
    intro c0 after h
    rw [List.dropWhile_cons] at h
    by_cases hp : p a = true
    · rw [if_pos hp] at h
      exact ih h
    · rw [if_neg hp] at h
      injection h with h1 h2
      subst h1
      cases hpp : p a with
      | false => rfl
      | true => exact absurd hpp hp

theorem matchStoreIdAt_some_spec {l r : List Char} (h : matchStoreIdAt l = some r) :
    ∃ s b, l = s ++ '/' :: (r ++ b) ∧ s ≠ [] ∧ (∀ c ∈ s, c ≠ '/') ∧
      (∀ c ∈ r, allowedIdChar c = true) ∧ 20 ≤ r.length := by
  unfold matchStoreIdAt at h
  by_cases he : (l.takeWhile (fun c => c ≠ '/')).isEmpty = true
  · rw [if_pos he] at h
    cases h
  · rw [if_neg he] at h
    cases hdw : l.dropWhile (fun c => c ≠ '/') with
    | nil =>
      rw [hdw] at h
      cases h
    | cons c0 after =>
      have hc0 : c0 = '/' := by
        have := dropWhile_head_false hdw
        simpa using this
      subst hc0
      rw [hdw] at h
      have h2 : (if 20 ≤ (after.takeWhile allowedIdChar).length
          then some (after.takeWhile allowedIdChar) else none) = some r := h
      by_cases hr : 20 ≤ (after.takeWhile allowedIdChar).length
      · rw [if_pos hr] at h2
        have hrr : r = after.takeWhile allowedIdChar := by
          cases h2; rfl
        subst hrr
        refine ⟨l.takeWhile (fun c => c ≠ '/'), after.dropWhile allowedIdChar, ?_, ?_, ?_, ?_, hr⟩
        · have hx : after.takeWhile allowedIdChar ++ after.dropWhile allowedIdChar = after :=
            List.takeWhile_append_dropWhile allowedIdChar after
          rw [hx]
          conv_lhs => rw [← List.takeWhile_append_dropWhile (p := fun c => c ≠ '/') (l := l)]
          rw [hdw]
        · intro h0
          rw [h0] at he
          exact he rfl
        · intro c hc
          have := List.mem_takeWhile_imp hc
          simpa using this
        · intro c hc
          exact List.mem_takeWhile_imp hc
      · rw [if_neg hr] at h2
        cases h2

theorem searchStorePat_isSome_of_core {s i b : List Char} (hs0 : s ≠ [])
    (hs : ∀ c ∈ s, c ≠ '/') (hi : ∀ c ∈ i, allowedIdChar c = true) (hlen : 20 ≤ i.length) :
    ∀ a : List Char,
      (searchStorePat matchStoreIdAt (a ++ (storeLit ++ (s ++ '/' :: (i ++ b))))).isSome = true := by
  intro a
  induction a with
  | nil =>
    rw [List.nil_append]
    rw [searchStorePat_hit (storeLit_isPrefixOf_append _)
      (by rw [List.drop_left]; exact matchStoreIdAt_spec hs0 hs hi hlen)]
    rfl
  | cons c cs ih =>
    rw [List.cons_append, searchStorePat]
    by_cases hp : storeLit.isPrefixOf (c :: (cs ++ (storeLit ++ (s ++ '/' :: (i ++ b))))) = true
    · rw [if_pos hp]
      cases hm : matchStoreIdAt ((c :: (cs ++ (storeLit ++ (s ++ '/' :: (i ++ b))))).drop
          storeLit.length) with
      | some r => rfl
      | none => exact ih
    · rw [if_neg hp]
      exact ih

theorem searchStorePat_some_spec :
    ∀ {url r : List Char}, searchStorePat matchStoreIdAt url = some r → specStorePattern url := by
  intro url
  induction url with
  | nil =>
    intro r h
    cases h
  | cons c cs ih =>
    intro r h
    rw [searchStorePat] at h
    by_cases hp : storeLit.isPrefixOf (c :: cs) = true
    · rw [if_pos hp] at h
      cases hm : matchStoreIdAt ((c :: cs).drop storeLit.length) with
      | some r' =>
        obtain ⟨t, ht⟩ := List.isPrefixOf_iff_prefix.mp hp
        have hd : (c :: cs).drop storeLit.length = t := by
          rw [← ht, List.drop_left]
        rw [hd] at hm
        obtain ⟨s, b, hdec, hs0, hs, hr, hlen⟩ := matchStoreIdAt_some_spec hm
        exact ⟨[], s, r', b, by rw [← ht, hdec]; simp, hs0, hs, hr, hlen⟩
      | none =>
        rw [hm] at h
        obtain ⟨a, s, i, b, hdec, hs0, hs, hi, hlen⟩ := ih h
        exact ⟨c :: a, s, i, b, by simp [hdec], hs0, hs, hi, hlen⟩
    · rw [if_neg hp] at h
      obtain ⟨a, s, i, b, hdec, hs0, hs, hi, hlen⟩ := ih h
      exact ⟨c :: a, s, i, b, by simp [hdec], hs0, hs, hi, hlen⟩

/-- C7: `_extract_store_id_from_url` succeeds exactly on the URLs
containing the store-path pattern — `"/tw/store/"`, a nonempty
slash-free slug, `'/'`, then at least 20 identifier characters from
`[A-Za-z0-9_-]` — returning none on every URL lacking the pattern (the
"not a store link" signal); and when the pattern's occurrence is the
first `"/tw/store/"` hit and the identifier run is not followed by a
further identifier character, it returns exactly that identifier. -/
theorem extract_store_id_spec :
    (∀ url : List Char,
      (extract_store_id_from_url url).isSome = true ↔ specStorePattern url) ∧
    (∀ url : List Char, ¬ specStorePattern url → extract_store_id_from_url url = none) ∧
    (∀ a s i b : List Char,
      s ≠ [] → (∀ c ∈ s, c ≠ '/') → (∀ c ∈ i, allowedIdChar c = true) → 20 ≤ i.length →
      (∀ c, b.head? = some c → allowedIdChar c = false) →
      (∀ j, j < a.length →
        storeLit.isPrefixOf (a.drop j ++ (storeLit ++ (s ++ '/' :: (i ++ b)))) = false) →
      extract_store_id_from_url (a ++ (storeLit ++ (s ++ '/' :: (i ++ b)))) = some i) := by
  have hmain : ∀ url : List Char,
      (extract_store_id_from_url url).isSome = true ↔ specStorePattern url := by
    intro url
    constructor
    · intro h
      cases hs : extract_store_id_from_url url with
      | none =>
        rw [hs] at h
        cases h
      | some r => exact searchStorePat_some_spec hs
    · rintro ⟨a, s, i, b, hdec, hs0, hs, hi, hlen⟩
      have := searchStorePat_isSome_of_core (b := b) hs0 hs hi hlen a
      rw [hdec]
      unfold extract_store_id_from_url
      simpa [List.append_assoc] using this
  refine ⟨hmain, ?_, ?_⟩
  · intro url hnp
    cases hs : extract_store_id_from_url url with
    | none => rfl
    | some r =>
      exact absurd ((hmain url).mp (by rw [hs]; rfl)) hnp
  · intro a s i b hs0 hs hi hlen hb hx
    unfold extract_store_id_from_url
    rw [searchStorePat_skip hx]
    have htb : b.takeWhile allowedIdChar = [] := by
      cases b with
      | nil => rfl
      | cons c0 b' =>
        rw [List.takeWhile_cons, hb c0 rfl]
        rfl
    rw [searchStorePat_hit (storeLit_isPrefixOf_append _)
      (by rw [List.drop_left]; exact matchStoreIdAt_spec hs0 hs hi hlen), htb,
      List.append_nil]

/-- Witness for `extract_store_id_spec` on the spec's example URL
`https://www.ubereats.com/tw/store/mui-mui/n_9V8YWoTcu1l5YTxLP1Ow`. -/
theorem extract_store_id_spec_witness :
    extract_store_id_from_url
        ("https://www.ubereats.com".toList ++ (storeLit ++
          ("mui-mui".toList ++ '/' :: ("n_9V8YWoTcu1l5YTxLP1Ow".toList ++ [])))) =
      some ("n_9V8YWoTcu1l5YTxLP1Ow".toList) :=
  extract_store_id_spec.2.2 ("https://www.ubereats.com".toList) ("mui-mui".toList)
    ("n_9V8YWoTcu1l5YTxLP1Ow".toList) [] (by decide) (by decide) (by decide) (by decide)
    (by intro c hc; cases hc) (by decide)

/-! ### C5: the two collectors compared -/

theorem isPrefixOf_append_of_le {p x t : List Char} (h : p.length ≤ x.length) :
    p.isPrefixOf (x ++ t) = p.isPrefixOf x := by
  induction p generalizing x with
  | nil => simp [List.isPrefixOf]
  | cons a p' ih =>
    cases x with
    | nil =>
      rw [List.length_cons, List.length_nil] at h
      omega
    | cons b x' =>
      rw [List.cons_append]
      show (a == b && p'.isPrefixOf (x' ++ t)) = (a == b && p'.isPrefixOf x')
      rw [ih (by rw [List.length_cons, List.length_cons] at h; omega)]

theorem isPrefixOf_of_append_short {p x t : List Char} (h : p.isPrefixOf (x ++ t) = true)
    (hlen : x.length ≤ p.length) : x.isPrefixOf p = true := by
  induction x generalizing p with
  | nil => simp [List.isPrefixOf]
  | cons b x' ih =>
    cases p with
    | nil =>
      rw [List.length_cons, List.length_nil] at hlen
      omega
    | cons a p' =>
      rw [List.cons_append] at h
      have h2 : (a == b && p'.isPrefixOf (x' ++ t)) = true := h
      rw [Bool.and_eq_true] at h2
      show (b == a && x'.isPrefixOf p') = true
      rw [Bool.and_eq_true]
      refine ⟨?_, ih h2.2 (by rw [List.length_cons, List.length_cons] at hlen; omega)⟩
      have : a = b := by simpa using h2.1
      simp [this]

theorem noLit_of_long {x t : List Char} (hlen : storeLit.length ≤ x.length)
    (hx : storeLit.isPrefixOf x = false) : storeLit.isPrefixOf (x ++ t) = false := by
  rw [isPrefixOf_append_of_le hlen]
  exact hx

theorem noLit_of_short {x t : List Char} (hlen : x.length ≤ storeLit.length)
    (hx : x.isPrefixOf storeLit = false) : storeLit.isPrefixOf (x ++ t) = false := by
  cases h : storeLit.isPrefixOf (x ++ t) with
  | false => rfl
  | true => exact absurd (isPrefixOf_of_append_short h hlen) (by rw [hx]; exact Bool.false_ne_true)

theorem noLitInBase (core : List Char) :
    ∀ j, j < baseChars.length → storeLit.isPrefixOf (baseChars.drop j ++ core) = false := by
  intro j hj
  have hlen : baseChars.length = 24 := by decide
  rw [hlen] at hj
  interval_cases j <;>
    first
      | exact noLit_of_long (by decide) (by decide)
      | exact noLit_of_short (by decide) (by decide)

theorem pyUnquote_no_percent {s : List Char} (h : ∀ c ∈ s, c ≠ '%') : pyUnquote s = s := by
  induction s using pyUnquote.induct with
  | case1 => rfl
  | case2 a b rest x y hx hy =>
    exact absurd rfl (h '%' (List.mem_cons_self _ _))
  | case3 a b rest hm =>
    exact absurd rfl (h '%' (List.mem_cons_self _ _))
  | case4 c rest hne ih =>
    rw [pyUnquote]
    · rw [ih (fun x hx => h x (List.mem_cons_of_mem _ hx))]
    · exact hne

theorem any_map_proj {α β : Type} (f : α → β) (p : β → Bool) :
    ∀ l : List α, (l.map f).any p = l.any (fun a => p (f a)) := by
  intro l
  induction l with
  | nil => rfl
  | cons a l ih => rw [List.map_cons, List.any_cons, List.any_cons, ih]

theorem matchSlugAt_spec {s : List Char} (hs0 : s ≠ []) (hs : ∀ c ∈ s, c ≠ '/')
    (t : List Char) : matchSlugAt (s ++ '/' :: t) = some s := by
  obtain ⟨htake, hdrop⟩ := takeWhile_slug hs t
  unfold matchSlugAt
  rw [htake, hdrop]
  have hempty : s.isEmpty = false := by
    cases s with
    | nil => exact absurd rfl hs0
    | cons a as => rfl
  show (if s.isEmpty = true then none else some s) = some s
  rw [hempty, if_neg (by decide : ¬(false = true))]

theorem extract_id_canonical {s i : List Char} (hs0 : s ≠ []) (hs : ∀ c ∈ s, c ≠ '/')
    (hi : ∀ c ∈ i, allowedIdChar c = true) (hlen : 20 ≤ i.length) :
    extract_store_id_from_url (storeLit ++ s ++ '/' :: i) = some i := by
  have hm := matchStoreIdAt_spec (b := ([] : List Char)) hs0 hs hi hlen
  simp only [List.takeWhile_nil, List.append_nil] at hm
  show searchStorePat matchStoreIdAt (storeLit ++ s ++ '/' :: i) = some i
  rw [List.append_assoc]
  exact searchStorePat_hit (storeLit_isPrefixOf_append _)
    (by rw [List.drop_left]; exact hm)

theorem extract_id_canonical_base {s i : List Char} (hs0 : s ≠ []) (hs : ∀ c ∈ s, c ≠ '/')
    (hi : ∀ c ∈ i, allowedIdChar c = true) (hlen : 20 ≤ i.length) :
    extract_store_id_from_url (baseChars ++ (storeLit ++ (s ++ '/' :: i))) = some i := by
  have hskip := searchStorePat_skip (m := matchStoreIdAt)
    (noLitInBase (storeLit ++ (s ++ '/' :: i)))
  show searchStorePat matchStoreIdAt (baseChars ++ (storeLit ++ (s ++ '/' :: i))) = some i
  rw [hskip]
  show extract_store_id_from_url (storeLit ++ (s ++ '/' :: i)) = some i
  rw [← List.append_assoc]
  exact extract_id_canonical hs0 hs hi hlen

theorem extract_slug_canonical {s : List Char} (hs0 : s ≠ []) (hs : ∀ c ∈ s, c ≠ '/')
    (hp : ∀ c ∈ s, c ≠ '%') (i : List Char) :
    extract_store_slug (storeLit ++ s ++ '/' :: i) = s := by
  have hsearch : searchStorePat matchSlugAt (storeLit ++ s ++ '/' :: i) = some s := by
    rw [List.append_assoc]
    exact searchStorePat_hit (storeLit_isPrefixOf_append _)
      (by rw [List.drop_left]; exact matchSlugAt_spec hs0 hs i)
  unfold extract_store_slug
  rw [hsearch]
  show pyUnquote s = s
  exact pyUnquote_no_percent hp

theorem extract_slug_canonical_base {s : List Char} (hs0 : s ≠ []) (hs : ∀ c ∈ s, c ≠ '/')
    (hp : ∀ c ∈ s, c ≠ '%') (i : List Char) :
    extract_store_slug (baseChars ++ (storeLit ++ (s ++ '/' :: i))) = s := by
  have hskip := searchStorePat_skip (m := matchSlugAt)
    (noLitInBase (storeLit ++ (s ++ '/' :: i)))
  have hsearch : searchStorePat matchSlugAt (storeLit ++ (s ++ '/' :: i)) = some s := by
    exact searchStorePat_hit (storeLit_isPrefixOf_append _)
      (by rw [List.drop_left]; exact matchSlugAt_spec hs0 hs i)
  unfold extract_store_slug
  rw [hskip, hsearch]
  show pyUnquote s = s
  exact pyUnquote_no_percent hp

theorem absolute_storeLit (z : List Char) :
    absolute_store_url (storeLit ++ z) = baseChars ++ storeLit ++ z := by
  show baseChars ++ (storeLit ++ z) = baseChars ++ storeLit ++ z
  rw [List.append_assoc]

theorem canonical_link_proj {lk : LinkEl} {s i : List Char}
    (he : lk.href = storeLit ++ s ++ '/' :: i) (hs0 : s ≠ [])
    (hs : ∀ c ∈ s, c ≠ '/' ∧ c ≠ '%') (hi : ∀ c ∈ i, allowedIdChar c = true)
    (hlen : 20 ≤ i.length) :
    extract_store_id_from_url lk.href = some i ∧
    extract_store_id_from_url (absolute_store_url lk.href) = some i ∧
    flatProj (flatRecord lk i) = viewProj (viewRecord lk i) := by
  have hsA : ∀ c ∈ s, c ≠ '/' := fun c hc => (hs c hc).1
  have hsB : ∀ c ∈ s, c ≠ '%' := fun c hc => (hs c hc).2
  have he2 : lk.href = storeLit ++ (s ++ '/' :: i) := by rw [he, List.append_assoc]
  have hid : extract_store_id_from_url lk.href = some i := by
    rw [he]
    exact extract_id_canonical hs0 hsA hi hlen
  have habs : absolute_store_url lk.href = baseChars ++ (storeLit ++ (s ++ '/' :: i)) := by
    rw [he2, absolute_storeLit, List.append_assoc]
  have hidabs : extract_store_id_from_url (absolute_store_url lk.href) = some i := by
    rw [habs]
    exact extract_id_canonical_base hs0 hsA hi hlen
  have hslug : extract_store_slug lk.href = s := by
    rw [he]
    exact extract_slug_canonical hs0 hsA hsB i
  have hslugabs : extract_store_slug (absolute_store_url lk.href) = s := by
    rw [habs]
    exact extract_slug_canonical_base hs0 hsA hsB i
  refine ⟨hid, hidabs, ?_⟩
  show (i, (if (firstLine (pyStrip lk.text)).isEmpty then extract_store_slug lk.href
        else firstLine (pyStrip lk.text)), build_store_url (extract_store_slug lk.href) i) =
      (i, (if (firstLine (pyStrip lk.text)).isEmpty
        then extract_store_slug (absolute_store_url lk.href)
        else firstLine (pyStrip lk.text)), absolute_store_url lk.href)
  rw [hslug, hslugabs, habs, build_store_url]
  simp [List.append_assoc]

theorem flatScanLinks_cons_some {cap : Nat} {s : List FlatStore} {lk : LinkEl}
    {rest : List LinkEl} {sid : List Char}
    (h : extract_store_id_from_url lk.href = some sid) :
    flatScanLinks cap s (lk :: rest) =
      (if cap ≤ (if s.any (fun st => st.store_id == sid) then s
          else s ++ [flatRecord lk sid]).length
       then (if s.any (fun st => st.store_id == sid) then s else s ++ [flatRecord lk sid])
       else flatScanLinks cap
         (if s.any (fun st => st.store_id == sid) then s else s ++ [flatRecord lk sid]) rest) := by
  rw [flatScanLinks, h]

theorem scan_proj_eq {cap : Nat} :
    ∀ (round : List LinkEl), (∀ lk ∈ round, canonicalHref lk.href) →
    ∀ (sf : List FlatStore) (sv : List ViewStore),
      sf.map flatProj = sv.map viewProj →
      (flatScanLinks cap sf round).map flatProj =
        (viewScanLinks cap sv round).map viewProj := by
  intro round
  induction round with
  | nil =>
    intro _ sf sv h
    rw [flatScanLinks, viewScanLinks]
    exact h
  | cons lk rest ih =>
    intro hr sf sv h
    obtain ⟨s, i, he, hs0, hs, hi, hlen⟩ := hr lk (List.mem_cons_self _ _)
    obtain ⟨hid, hidabs, hproj⟩ := canonical_link_proj he hs0 hs hi hlen
    have hrest : ∀ x ∈ rest, canonicalHref x.href :=
      fun x hx => hr x (List.mem_cons_of_mem _ hx)
    have hlens : sf.length = sv.length := by
      have h2 := congrArg List.length h
      rw [List.length_map, List.length_map] at h2
      exact h2
    have hany : sf.any (fun st => st.store_id == i) = sv.any (fun st => st.store_id == i) := by
      have h1 : (sf.map flatProj).any (fun p => p.1 == i) =
          (sv.map viewProj).any (fun p => p.1 == i) := by rw [h]
      rw [any_map_proj, any_map_proj] at h1
      exact h1
    rw [flatScanLinks_cons_some hid, viewScanLinks_cons_some hidabs]
    by_cases hdup : sv.any (fun st => st.store_id == i) = true
    · have hdupf : sf.any (fun st => st.store_id == i) = true := by rw [hany]; exact hdup
      rw [if_pos hdupf, if_pos hdup]
      by_cases hcap : cap ≤ sv.length
      · rw [if_pos (show cap ≤ sf.length by rw [hlens]; exact hcap), if_pos hcap]
        exact h
      · rw [if_neg (show ¬ cap ≤ sf.length by rw [hlens]; exact hcap), if_neg hcap]
        exact ih hrest sf sv h
    · have hdupf : ¬ sf.any (fun st => st.store_id == i) = true := by rw [hany]; exact hdup
      rw [if_neg hdupf, if_neg hdup]
      have hnew : (sf ++ [flatRecord lk i]).map flatProj =
          (sv ++ [viewRecord lk i]).map viewProj := by
        rw [List.map_append, List.map_append, h, List.map_cons, List.map_nil,
          List.map_cons, List.map_nil, hproj]
      have hlen2 : (sf ++ [flatRecord lk i]).length = (sv ++ [viewRecord lk i]).length := by
        rw [List.length_append, List.length_append, hlens]
        rfl
      by_cases hcap : cap ≤ (sv ++ [viewRecord lk i]).length
      · rw [if_pos (show cap ≤ (sf ++ [flatRecord lk i]).length by rw [hlen2]; exact hcap),
          if_pos hcap]
        exact hnew
      · rw [if_neg (show ¬ cap ≤ (sf ++ [flatRecord lk i]).length by rw [hlen2]; exact hcap),
          if_neg hcap]
        exact ih hrest _ _ hnew

theorem loop_proj_eq (cap : Nat) :
    ∀ (fuel : Nat) (rounds : List (List LinkEl)),
      (∀ r ∈ rounds, ∀ lk ∈ r, canonicalHref lk.href) →
      ∀ (sf : List FlatStore) (sv : List ViewStore) (prev stale : Nat),
        sf.map flatProj = sv.map viewProj →
        (flatLoop cap fuel sf prev stale rounds).map flatProj =
          (viewLoop cap fuel sv prev stale rounds).map viewProj := by
  intro fuel
  induction fuel with
  | zero =>
    intro rounds hr sf sv prev stale h
    rw [flatLoop, viewLoop, List.map_take, List.map_take, h]
  | succ fuel ih =>
    intro rounds hr sf sv prev stale h
    have hlens : sf.length = sv.length := by
      have h2 := congrArg List.length h
      rw [List.length_map, List.length_map] at h2
      exact h2
    have hhead : ∀ lk ∈ rounds.headD [], canonicalHref lk.href := by
      cases rounds with
      | nil => intro lk hlk; cases hlk
      | cons r rs => exact hr r (List.mem_cons_self _ _)
    have htail : ∀ r ∈ rounds.tail, ∀ lk ∈ r, canonicalHref lk.href := by
      cases rounds with
      | nil => intro r hrr; cases hrr
      | cons r0 rs => exact fun r hrr => hr r (List.mem_cons_of_mem _ hrr)
    rw [flatLoop, viewLoop]
    by_cases hcap : cap ≤ sv.length
    · rw [if_pos (show cap ≤ sf.length by rw [hlens]; exact hcap), if_pos hcap,
        List.map_take, List.map_take, h]
    · rw [if_neg (show ¬ cap ≤ sf.length by rw [hlens]; exact hcap), if_neg hcap]
      have hscan := @scan_proj_eq cap (rounds.headD []) hhead sf sv h
      have hslen : (flatScanLinks cap sf (rounds.headD [])).length =
          (viewScanLinks cap sv (rounds.headD [])).length := by
        have h2 := congrArg List.length hscan
        rw [List.length_map, List.length_map] at h2
        exact h2
      by_cases hst : (viewScanLinks cap sv (rounds.headD [])).length = prev
      · rw [if_pos (show (flatScanLinks cap sf (rounds.headD [])).length = prev by
            rw [hslen]; exact hst), if_pos hst]
        by_cases h3 : 3 ≤ stale + 1
        · rw [if_pos h3, if_pos h3, List.map_take, List.map_take, hscan]
        · rw [if_neg h3, if_neg h3, hslen]
          exact ih rounds.tail htail _ _ _ _ hscan
      · rw [if_neg (show ¬ (flatScanLinks cap sf (rounds.headD [])).length = prev by
            rw [hslen]; exact hst), if_neg hst, hslen]
        exact ih rounds.tail htail _ _ _ _ hscan

/-- C5: the flat collector `collect_store_links` and the per-category
collector `collect_store_links_from_current_view` implement the same
scroll/accumulate algorithm on the fields both produce — for every cap
and every sequence of page states whose store-link hrefs are canonical
root-relative store paths (`/tw/store/<slug>/<id>` with a nonempty
slash- and percent-free slug and an identifier of at least 20 allowed
characters), the two collectors return the same stores with the same
identifiers, names and URLs in the same first-seen order. (On
non-canonical hrefs they can differ; see the bare-relative
counterexample.) -/
theorem collectors_agree_on_canonical (cap : Nat) (rounds : List (List LinkEl))
    (hr : ∀ r ∈ rounds, ∀ lk ∈ r, canonicalHref lk.href) :
    (collect_store_links cap rounds).map flatProj =
      (collect_store_links_from_current_view cap rounds).map viewProj :=
  loop_proj_eq cap 20 rounds hr [] [] 0 0 rfl

theorem collectors_agree_on_canonical_witness :
    ((collect_store_links 3
        [[⟨"/tw/store/mui-mui/n_9V8YWoTcu1l5YTxLP1Ow".toList, "沐沐茶館".toList⟩]]).map flatProj =
      (collect_store_links_from_current_view 3
        [[⟨"/tw/store/mui-mui/n_9V8YWoTcu1l5YTxLP1Ow".toList, "沐沐茶館".toList⟩]]).map viewProj) ∧
    (collect_store_links_from_current_view 3
        [[⟨"/tw/store/mui-mui/n_9V8YWoTcu1l5YTxLP1Ow".toList, "沐沐茶館".toList⟩]]).map viewProj =
      [("n_9V8YWoTcu1l5YTxLP1Ow".toList, "沐沐茶館".toList,
        "https://www.ubereats.com/tw/store/mui-mui/n_9V8YWoTcu1l5YTxLP1Ow".toList)] :=
  ⟨collectors_agree_on_canonical 3 _ (by
      intro r hrr lk hlk
      rw [List.mem_singleton] at hrr
      subst hrr
      rw [List.mem_singleton] at hlk
      subst hlk
      exact ⟨"mui-mui".toList, "n_9V8YWoTcu1l5YTxLP1Ow".toList, by decide, by decide,
        by decide, by decide, by decide⟩),
    by decide⟩

/-- C5 counterexample: on a page state that is not covered by the
canonical-href hypothesis — a store link whose href is relative without
a leading slash — the flat collector extracts no identifier from the raw
href and returns no store, while the per-category collector absolutises
the href first and records one store, so the two collectors are not
equal on all page states. -/
theorem collectors_differ_on_bare_relative :
    (collect_store_links 3
        [[⟨"tw/store/aaa/ABCDEFGHIJKLMNOPQRST".toList, "A".toList⟩]]).map flatProj ≠
      (collect_store_links_from_current_view 3
        [[⟨"tw/store/aaa/ABCDEFGHIJKLMNOPQRST".toList, "A".toList⟩]]).map viewProj := by
  decide

end AfternoonTea

